import Mathlib

set_option autoImplicit false
set_option maxRecDepth 100000

/-!
# konfigurator: `model/k8s.go`

A shallow embedding of the manifest read / merge / write code of
`model/k8s.go`, and theorems about it.

Conventions of the embedding

* Go `string` values are Lean `String`s; Go `[]byte` buffers are `List Char`
  (every separator and pattern of the file is ASCII, so matching on bytes and
  on characters agree).
* Pointer arguments are represented by their pointees.  A function that
  mutates through a pointer returns the final state of the pointee together
  with how the call ended (`Outcome`).
* Library functions the file calls (`strings.ToUpper`, `strings.ToLower`,
  `yaml.Unmarshal`, `json.Marshal`, `yaml.JSONToYAML`, `ioutil.ReadFile`) are
  parameters of the definitions that call them.
* `Other` stands for the fields of a Kubernetes object that the file never
  reads or writes.
-/

namespace Konfigurator

/-! ## Data model -/

/-- The functions of Go's `strings` package that `UpdateDeployment` calls. -/
structure Strings where
  ToUpper : String → String
  ToLower : String → String

/-- ASCII case mapping, used to evaluate the definitions on concrete names. -/
def asciiStrings : Strings where
  ToUpper := fun s => String.mk (s.data.map Char.toUpper)
  ToLower := fun s => String.mk (s.data.map Char.toLower)

/-- Modelled from the spec: the declaration of `VariableDef.Type` and of the
constants `CONFIGMAP`, `SECRET`, `REFERENCE` is not part of the sources at
hand.  `unrecognised` stands for every value of the type that is none of the
three constants. -/
inductive VariableType where
  | CONFIGMAP
  | SECRET
  | REFERENCE
  | unrecognised
  deriving DecidableEq, Repr

/-- The dynamic value held by `VariableDef.Value` (a Go `interface{}`): the
only thing the code asks of it is whether it is a `string`. -/
inductive Payload where
  | str (s : String)
  | nonString
  deriving DecidableEq, Repr

/-- Modelled from the spec: `VariableDef` is declared outside the sources at
hand; the three fields are those `UpdateDeployment` reads. -/
structure VariableDef where
  Name : String
  VarType : VariableType
  Value : Payload
  deriving DecidableEq, Repr

/-- Go type `v1.ConfigMapKeySelector`: `Name` is the embedded `LocalObjectReference`. -/
structure ConfigMapKeySelector where
  Name : String
  Key : String
  deriving DecidableEq, Repr

/-- Go type `v1.SecretKeySelector`: `Name` is the embedded `LocalObjectReference`. -/
structure SecretKeySelector where
  Name : String
  Key : String
  deriving DecidableEq, Repr

/-- Go type `v1.ObjectFieldSelector`. -/
structure ObjectFieldSelector where
  APIVersion : String
  FieldPath : String
  deriving DecidableEq, Repr

/-- Go type `v1.EnvVarSource`: each field is a pointer, `none` is `nil`. -/
structure EnvVarSource where
  FieldRef : Option ObjectFieldSelector
  ConfigMapKeyRef : Option ConfigMapKeySelector
  SecretKeyRef : Option SecretKeySelector
  deriving DecidableEq, Repr

/-- Go type `v1.EnvVar`. -/
structure EnvVar where
  Name : String
  Value : String
  ValueFrom : Option EnvVarSource
  deriving DecidableEq, Repr

/-- Go type `v1.Container`. -/
structure Container (Other : Type) where
  Name : String
  Env : List EnvVar
  other : Other
  deriving DecidableEq, Repr

/-- Go type `v1.PodSpec`. -/
structure PodSpec (Other : Type) where
  Containers : List (Container Other)
  other : Other
  deriving DecidableEq, Repr

/-- Go type `v1.PodTemplateSpec`. -/
structure PodTemplateSpec (Other : Type) where
  Spec : PodSpec Other
  other : Other
  deriving DecidableEq, Repr

/-- Go type `v1beta1.DeploymentSpec`. -/
structure DeploymentSpec (Other : Type) where
  Template : PodTemplateSpec Other
  other : Other
  deriving DecidableEq, Repr

/-- Go type `v1beta1.Deployment`: `Kind` comes from the embedded `TypeMeta`, `Name`
from the embedded `ObjectMeta`. -/
structure Deployment (Other : Type) where
  Kind : String
  Name : String
  Spec : DeploymentSpec Other
  other : Other
  deriving DecidableEq, Repr

/-- Go type `v1.ConfigMap`. -/
structure ConfigMap (Other : Type) where
  Kind : String
  Name : String
  other : Other
  deriving DecidableEq, Repr

/-- Go type `v1.Secret`. -/
structure Secret (Other : Type) where
  Kind : String
  Name : String
  other : Other
  deriving DecidableEq, Repr

/-- How a call ended: a normal return with a `nil` error, a returned error,
or a run-time panic. -/
inductive Outcome where
  | ok
  | error (msg : String)
  | panic (msg : String)
  deriving DecidableEq, Repr

/-! ## `UpdateDeployment` -/

section Injector

variable {Other : Type}

/-- Lines 205-210: the index of the first container whose name is
`containerName` (`dstContainer` points at that element), `none` when
`dstContainer` stays `nil`. -/
def findContainer (containerName : String) : List (Container Other) → Option Nat
  | [] => none
  | container :: rest =>
    if container.Name = containerName then some 0
    else (findContainer containerName rest).map (· + 1)

/-- Lines 221-244: the `switch variable.Type` that builds `envVarSource`.
`none` is the `nil` the variable keeps when no case applies; the type
assertion `variable.Value.(string)` panics on a value that is not a string. -/
def buildEnvVarSource (strings : Strings) (configMap : ConfigMap Other)
    (secret : Secret Other) (v : VariableDef) :
    Except String (Option EnvVarSource) :=
  match v.VarType with
  | .CONFIGMAP =>
    .ok (some { FieldRef := none
                ConfigMapKeyRef := some { Key := strings.ToLower v.Name
                                          Name := configMap.Name }
                SecretKeyRef := none })
  | .SECRET =>
    .ok (some { FieldRef := none
                ConfigMapKeyRef := none
                SecretKeyRef := some { Key := strings.ToLower v.Name
                                       Name := secret.Name } })
  | .REFERENCE =>
    match v.Value with
    | .str fieldPath =>
      .ok (some { FieldRef := some { APIVersion := "", FieldPath := fieldPath }
                  ConfigMapKeyRef := none
                  SecretKeyRef := none })
    | .nonString => .error "interface conversion: interface is not string"
  | .unrecognised => .ok none

/-- Lines 246-253: `for _, envs := range dstContainer.Env`.  `envs` is the
loop variable, a copy of the element; the two assignments of the loop body
write to that copy.  The result is the value of `envVarSource` after the loop
together with the last value of the loop variable `envs` when the loop ended
by `break`.  No statement of the loop assigns to `dstContainer.Env` or to one
of its elements, so the list is not among the results. -/
def scanEnv (strings : Strings) (v : VariableDef) :
    List EnvVar → Option EnvVarSource → Option EnvVarSource × Option EnvVar
  | [], envVarSource => (envVarSource, none)
  | envs :: rest, envVarSource =>
    if envs.Name = strings.ToUpper v.Name then
      let envs : EnvVar := { envs with Value := "", ValueFrom := envVarSource }
      (none, some envs)
    else scanEnv strings v rest envVarSource

/-- Lines 220-259: the loop over `variables`, on the environment list of
`dstContainer`.  The list returned with a panic is the one reached when the
panic happened. -/
def injectVariables (strings : Strings) (configMap : ConfigMap Other)
    (secret : Secret Other) : List VariableDef → List EnvVar → List EnvVar × Outcome
  | [], env => (env, .ok)
  | v :: rest, env =>
    match buildEnvVarSource strings configMap secret v with
    | .error msg => (env, .panic msg)
    | .ok envVarSource =>
      match (scanEnv strings v env envVarSource).1 with
      | some source =>
        injectVariables strings configMap secret rest
          (env ++ [{ Name := strings.ToUpper v.Name, Value := "", ValueFrom := some source }])
      | none => injectVariables strings configMap secret rest env

/-- The deployment in which the environment list of container `idx` of the
pod template is `env`: the effect of assigning `dstContainer.Env`. -/
def setContainerEnv (deployment : Deployment Other) (idx : Nat) (env : List EnvVar) :
    Deployment Other :=
  { deployment with
    Spec := { deployment.Spec with
      Template := { deployment.Spec.Template with
        Spec := { deployment.Spec.Template.Spec with
          Containers := deployment.Spec.Template.Spec.Containers.modify
            (fun container => { container with Env := env }) idx } } } }

/-- Function `UpdateDeployment` (lines 202-262).  The result is the state of
`*deployment` when the call ends, and how it ended.  The slice
`[]v1.EnvVar{}` assigned when `overwriteEnv` is set is the empty list. -/
def UpdateDeployment (strings : Strings) (deployment : Deployment Other)
    (configMap : ConfigMap Other) (secret : Secret Other) (containerName : String)
    (vars : List VariableDef) (overwriteEnv : Bool) : Deployment Other × Outcome :=
  match findContainer containerName deployment.Spec.Template.Spec.Containers with
  | none =>
    (deployment, .error ("Could not find container \x27" ++ containerName ++ "\x27 in deployment"))
  | some idx =>
    match deployment.Spec.Template.Spec.Containers[idx]? with
    | none => (deployment, .panic "index out of range")
    | some dstContainer =>
      let env := if overwriteEnv then [] else dstContainer.Env
      let result := injectVariables strings configMap secret vars env
      (setContainerEnv deployment idx result.1, result.2)

/-- The environment list of the container that `UpdateDeployment` targets. -/
def targetEnv (deployment : Deployment Other) (containerName : String) : Option (List EnvVar) :=
  match findContainer containerName deployment.Spec.Template.Spec.Containers with
  | none => none
  | some idx => (deployment.Spec.Template.Spec.Containers[idx]?).map (·.Env)

end Injector

/-! ## Splitter and locator -/

/-- A Go `[]byte` buffer. -/
abbrev Bytes := List Char

/-- Variable `yamlDocumentSeparator` (line 27). -/
def yamlDocumentSeparator : Bytes := "---\n".toList

/-- Go's `bytes.Split(s, sep)` for a non-empty `sep`: the pieces of `s` between the
non-overlapping occurrences of `sep`, found from the left.  `cur` is the piece
being read and `skip` the number of bytes of an occurrence of `sep` still to
pass over. -/
def bytesSplitAux (sep : Bytes) : Bytes → Bytes → Nat → List Bytes
  | [], cur, _ => [cur]
  | _ :: rest, cur, skip + 1 => bytesSplitAux sep rest cur skip
  | c :: rest, cur, 0 =>
    if sep.isPrefixOf (c :: rest) then cur :: bytesSplitAux sep rest [] (sep.length - 1)
    else bytesSplitAux sep rest (cur ++ [c]) 0

/-- Go's `bytes.Split`. -/
def bytesSplit (s sep : Bytes) : List Bytes := bytesSplitAux sep s [] 0

/-- Function `splitYamlDocument` (lines 30-32). -/
def splitYamlDocument (contents : Bytes) : List Bytes :=
  bytesSplit contents yamlDocumentSeparator

/-- Go's `ioutil.ReadFile`, as far as the readers use it: the content of the file
at a path, or an error. -/
structure Ioutil where
  ReadFile : String → Except String Bytes

/-- Call `yaml.Unmarshal(document, &obj)` for a target of type `Obj`: the state of
the target after the call and the error it returns (`none` is `nil`).  The
target is passed in because the call writes into an existing object. -/
structure Yaml (Obj : Type) where
  Unmarshal : Bytes → Obj → Obj × Option String

/-- The loop `for idx, document = range documents` of the three readers
(lines 46-57, 82-93, 118-129), which differ in the type of the target and in
the kind string only.  `i` is the position of the head of the list in
`documents`; the last two arguments are the target object and the variable
`idx`.  The result is the value of both after the loop.  The call to the
logger has no effect on them and is left out. -/
def scanDocuments {Obj : Type} (yaml : Yaml Obj) (kindOf : Obj → String) (kind : String) :
    List Bytes → Nat → Obj → Nat → Obj × Nat
  | [], _, obj, idx => (obj, idx)
  | document :: rest, i, obj, _ =>
    match yaml.Unmarshal document obj with
    | (obj, some _) => scanDocuments yaml kindOf kind rest (i + 1) obj i
    | (obj, none) =>
      if kindOf obj = kind then (obj, i)
      else scanDocuments yaml kindOf kind rest (i + 1) obj i

section Readers

variable {Other : Type} [Inhabited Other]

/-- The zero value `v1.Secret{}`. -/
def zeroSecret : Secret Other := { Kind := "", Name := "", other := default }

/-- The zero value `v1.ConfigMap{}`. -/
def zeroConfigMap : ConfigMap Other := { Kind := "", Name := "", other := default }

/-- The zero value `v1beta1.Deployment{}`. -/
def zeroDeployment : Deployment Other :=
  { Kind := ""
    Name := ""
    other := default
    Spec :=
      { other := default
        Template := { other := default, Spec := { Containers := [], other := default } } } }

/-- Function `ReadSecrets` (lines 34-64).  `append(documents[0:idx], documents[idx+1:]...)`
is the list without its element `idx`; the slice expressions are in range
whenever the line is reached, because `documents` is then not empty and
`idx` is the position of one of its elements. -/
def ReadSecrets (ioutil : Ioutil) (yaml : Yaml (Secret Other)) (filePath : String) :
    Except String (Secret Other × List Bytes) :=
  match ioutil.ReadFile filePath with
  | .error err => .error err
  | .ok contents =>
    let documents := splitYamlDocument contents
    let result := scanDocuments yaml (·.Kind) "Secret" documents 0 zeroSecret 0
    if result.1.Kind ≠ "Secret" then .error "Could not unmarshall Secrets"
    else .ok (result.1, documents.take result.2 ++ documents.drop (result.2 + 1))

/-- Function `ReadConfigMap` (lines 70-100). -/
def ReadConfigMap (ioutil : Ioutil) (yaml : Yaml (ConfigMap Other)) (filePath : String) :
    Except String (ConfigMap Other × List Bytes) :=
  match ioutil.ReadFile filePath with
  | .error err => .error err
  | .ok contents =>
    let documents := splitYamlDocument contents
    let result := scanDocuments yaml (·.Kind) "ConfigMap" documents 0 zeroConfigMap 0
    if result.1.Kind ≠ "ConfigMap" then .error "Could not unmarshall ConfigMap"
    else .ok (result.1, documents.take result.2 ++ documents.drop (result.2 + 1))

/-- Function `ReadDeployment` (lines 106-136).  The loop ranges over a second call of
`splitYamlDocument(contents)`; the leftovers are taken from `documents`. -/
def ReadDeployment (ioutil : Ioutil) (yaml : Yaml (Deployment Other)) (filePath : String) :
    Except String (Deployment Other × List Bytes) :=
  match ioutil.ReadFile filePath with
  | .error err => .error err
  | .ok contents =>
    let documents := splitYamlDocument contents
    let result :=
      scanDocuments yaml (·.Kind) "Deployment" (splitYamlDocument contents) 0 zeroDeployment 0
    if result.1.Kind ≠ "Deployment" then .error "Could not unmarshall Deployment"
    else .ok (result.1, documents.take result.2 ++ documents.drop (result.2 + 1))

end Readers

/-- The state of the decoding target after `yaml.Unmarshal` has been called
on each of `documents` in turn, starting from `obj`. -/
def decodeAll {Obj : Type} (yaml : Yaml Obj) (obj : Obj) (documents : List Bytes) : Obj :=
  documents.foldl (fun target document => (yaml.Unmarshal document target).1) obj

/-- A document deserializes with the requested kind: `yaml.Unmarshal` of the
document, into an object that holds nothing yet (`zero`), returns no error and
gives the discriminant `kind`.  This is a property of the document alone. -/
def deserializesAs {Obj : Type} (yaml : Yaml Obj) (kindOf : Obj → String) (kind : String)
    (zero : Obj) (document : Bytes) : Bool :=
  (yaml.Unmarshal document zero).2.isNone &&
    decide (kindOf (yaml.Unmarshal document zero).1 = kind)

/-- The test the loop of the readers makes at document `i`: the call of
`yaml.Unmarshal` on it, into the target that the earlier documents were
decoded into, returns no error and leaves the discriminant equal to `kind`.
It depends on the earlier documents through the shared target, and differs
from `deserializesAs` wherever an earlier document has left something in
the target. -/
def decodesAs {Obj : Type} (yaml : Yaml Obj) (kindOf : Obj → String) (kind : String)
    (zero : Obj) (documents : List Bytes) (i : Nat) : Bool :=
  match documents[i]? with
  | none => false
  | some document =>
    let result := yaml.Unmarshal document (decodeAll yaml zero (documents.take i))
    result.2.isNone && decide (kindOf result.1 = kind)

/-! ## Serializer -/

/-- The class `\s` of Go's regexp syntax: `[\t\n\f\r ]`. -/
def isSpace (c : Char) : Bool :=
  c = '\t' || c = '\n' || c = '\x0c' || c = '\r' || c = ' '

/-- The fragment of Go's regexp syntax in which the two patterns of line 25
and line 26 are written: literal text, `\s+`, concatenation, and the
alternation of a non-capturing group. -/
inductive Regexp where
  | lit (text : Bytes)
  | spaces
  | cat (r s : Regexp)
  | alt (r s : Regexp)

/-- Pattern `\s+` followed by the continuation `k`: the repetition is greedy, it
takes one more character first and gives it back when the rest fails. -/
def matchSpaces (k : Bytes → Option Bytes) : Bytes → Option Bytes
  | [] => none
  | c :: rest =>
    if isSpace c then (matchSpaces k rest).orElse (fun _ => k rest) else none

/-- A backtracking matcher with the preference order of Go's `regexp`
(leftmost-first): `r.matchThen input k` matches `r` at the start of `input`
and hands what is left to `k`; the left branch of an alternation is tried
first. -/
def Regexp.matchThen : Regexp → Bytes → (Bytes → Option Bytes) → Option Bytes
  | .lit text, input, k =>
    if text.isPrefixOf input then k (input.drop text.length) else none
  | .spaces, input, k => matchSpaces k input
  | .cat r s, input, k => r.matchThen input (fun rest => s.matchThen rest k)
  | .alt r s, input, k => (r.matchThen input k).orElse (fun _ => s.matchThen input k)

/-- The match of `r` that starts at the first character of `input`: what
follows the match, or `none`. -/
def Regexp.matchAt (r : Regexp) (input : Bytes) : Option Bytes :=
  r.matchThen input some

/-- The loop of `ReplaceAll` for a pattern that does not match the empty
string: at each position not inside a match already replaced, the match
starting there is replaced by `repl`; `skip` counts the characters of that
match still to pass over. -/
def replaceAllAux (re : Regexp) (repl : Bytes) : Bytes → Nat → Bytes
  | [], _ => []
  | _ :: rest, skip + 1 => replaceAllAux re repl rest skip
  | c :: rest, 0 =>
    match re.matchAt (c :: rest) with
    | some after =>
      repl ++ replaceAllAux re repl rest ((c :: rest).length - after.length - 1)
    | none => c :: replaceAllAux re repl rest 0

/-- Call `re.ReplaceAll(src, repl)` with a `repl` that has no `$` in it. -/
def Regexp.ReplaceAll (re : Regexp) (src repl : Bytes) : Bytes :=
  replaceAllAux re repl src 0

/-- Variable `timeStampRegex` (line 25). -/
def timeStampRegex : Regexp :=
  .cat .spaces (.lit "creationTimestamp: null".toList)

/-- Variable `emptyStructRegex` (line 26). -/
def emptyStructRegex : Regexp :=
  .cat .spaces
    (.cat (.alt (.lit "status".toList) (.alt (.lit "selector".toList) (.lit "strategy".toList)))
      (.lit ": \x7b\x7d".toList))

/-- The three alternatives of `emptyStructRegex` followed by `: {}`, as the
matcher tries them. -/
def emptyStructTail (input : Bytes) : Option Bytes :=
  ((Regexp.lit "status".toList).matchThen input
      (fun rest => (Regexp.lit ": \x7b\x7d".toList).matchThen rest some)).orElse
    (fun _ => ((Regexp.lit "selector".toList).matchThen input
      (fun rest => (Regexp.lit ": \x7b\x7d".toList).matchThen rest some)).orElse
    (fun _ => (Regexp.lit "strategy".toList).matchThen input
      (fun rest => (Regexp.lit ": \x7b\x7d".toList).matchThen rest some)))

/-- The encoder stage of `marshalK8sEntity`: `json.Marshal` and
`yaml.JSONToYAML`. -/
structure Encoder (Obj : Type) where
  Marshal : Obj → Except String Bytes
  JSONToYAML : Bytes → Except String Bytes

/-- Function `marshalK8sEntity` (lines 142-157). -/
def marshalK8sEntity {Obj : Type} (encoder : Encoder Obj) (obj : Obj) : Except String Bytes :=
  match encoder.Marshal obj with
  | .error err => .error err
  | .ok jsonData =>
    match encoder.JSONToYAML jsonData with
    | .error err => .error err
    | .ok output =>
      let output := timeStampRegex.ReplaceAll output []
      let output := emptyStructRegex.ReplaceAll output []
      .ok output

/-- The text ends here or goes on with a line break. -/
def endsLine : Bytes → Bool
  | [] => true
  | c :: _ => c = '\n'

/-- The field text of `timeStampRegex`. -/
def timeStampLiterals : List Bytes := ["creationTimestamp: null".toList]

/-- The field texts of `emptyStructRegex`. -/
def emptyStructLiterals : List Bytes :=
  ["status: \x7b\x7d".toList, "selector: \x7b\x7d".toList, "strategy: \x7b\x7d".toList]

/-- The four field texts the serializer strips. -/
def fieldLiterals : List Bytes := timeStampLiterals ++ emptyStructLiterals

/-- Every occurrence of `lit` in the text is a field line: the character
before it is white space and the line ends right after it.  `prevSpace` tells
whether the character before the text is white space. -/
def onlyAsFieldLine (lit : Bytes) : Bool → Bytes → Bool
  | _, [] => true
  | prevSpace, c :: rest =>
    (!(lit.isPrefixOf (c :: rest)) ||
        (prevSpace && endsLine ((c :: rest).drop lit.length))) &&
      onlyAsFieldLine lit (isSpace c) rest

/-- What the proofs use of a pattern of the shape `\s+(lit|...|lit)`: a match
is white space followed by one of the field texts, and white space followed by
a field text is matched. -/
structure StripsFields (re : Regexp) (lits : List Bytes) : Prop where
  sound : ∀ s after, re.matchAt s = some after →
    ∃ ws lit, ws ≠ [] ∧ lit ∈ lits ∧ s = ws ++ lit ++ after
  complete : ∀ c cs lit, isSpace c = true → lit ∈ lits → lit <+: cs →
    re.matchAt (c :: cs) ≠ none
  lit_ne : ∀ lit ∈ lits, lit ≠ []
  lit_line : ∀ lit ∈ lits, '\n' ∉ lit

/-- The text of the lines after the first one: each line preceded by its line
break. -/
def tailText : List Bytes → Bytes
  | [] => []
  | line :: rest => '\n' :: (line ++ tailText rest)

/-- A field line of `lits`: white space and then, up to the end of the line,
one of the field texts. -/
def isFieldLine (lits : List Bytes) (line : Bytes) : Bool :=
  lits.any (fun lit =>
    lit.isSuffixOf line && (line.take (line.length - lit.length)).all isSpace)

/-- The line is not empty and its last character is not white space. -/
def endsSolid (line : Bytes) : Bool :=
  match line.getLast? with
  | some c => !isSpace c
  | none => false

/-- Every line that stands directly before a line marked by `isField` is not
empty and does not end in white space. -/
def solidBefore (isField : Bytes → Bool) : List Bytes → Bool
  | [] => true
  | line :: rest =>
    (match rest.head? with
      | some next => !(isField next) || endsSolid line
      | none => true) &&
    solidBefore isField rest

/-- What the proofs about lines use of a pattern of the shape
`\s+(lit|...|lit)`, beyond `StripsFields`: the text before the field text of a
match is white space, and white space followed by a field text at the end of
its line is matched up to that end. -/
structure StripsLines (re : Regexp) (lits : List Bytes) : Prop where
  strips : StripsFields re lits
  sound_spaces : ∀ s after, re.matchAt s = some after →
    ∃ ws lit, ws ≠ [] ∧ (∀ c ∈ ws, isSpace c = true) ∧ lit ∈ lits ∧ s = ws ++ lit ++ after
  field_match : ∀ ws lit s, ws ≠ [] → (∀ c ∈ ws, isSpace c = true) → lit ∈ lits →
    endsLine s = true → re.matchAt (ws ++ lit ++ s) = some s

/-! ## Writer -/

/-- Go's `bytes.Join(s, sep)`: the elements of `s` with `sep` between
them. -/
def bytesJoin : List Bytes → Bytes → Bytes
  | [], _ => []
  | [x], _ => x
  | x :: y :: rest, sep => x ++ sep ++ bytesJoin (y :: rest) sep

/-- The files the writer can see: the content of the file at each path, `none`
where there is no file. -/
abbrev FileSystem := String → Option Bytes

/-- The file system in which the file at `path` has the content `contents`. -/
def FileSystem.put (fs : FileSystem) (path : String) (contents : Bytes) : FileSystem :=
  fun p => if p = path then some contents else fs p

/-- The ways `os.Create` and `(*os.File).Write` can fail.  `createError` is
the error `os.Create` returns for a path (`none` when it succeeds);
`writeError` tells, for a path and a buffer, how many bytes were written when
`Write` returned an error (`none` when it wrote the whole buffer and returned
`nil`). -/
structure Os where
  createError : FileSystem → String → Option String
  writeError : String → Bytes → Option (Nat × String)

/-- Function `writeK8sYaml` (lines 159-182).  The result is the file system
after the call and the error returned (`none` is `nil`).  `os.Create` creates
the file or truncates it to length zero; the single `Write` starts at the
beginning of that empty file; the deferred `Close` does not change the
content. -/
def writeK8sYaml {Obj : Type} (os : Os) (encoder : Encoder Obj) (fs : FileSystem)
    (obj : Obj) (leftOver : List Bytes) (filePath : String) : FileSystem × Option String :=
  match os.createError fs filePath with
  | some err => (fs, some err)
  | none =>
    let fs := fs.put filePath []
    match marshalK8sEntity encoder obj with
    | .error err => (fs, some err)
    | .ok output =>
      let leftOver := leftOver ++ [output]
      let buffer := bytesJoin leftOver yamlDocumentSeparator
      match os.writeError filePath buffer with
      | some (n, err) => (fs.put filePath (buffer.take n), some err)
      | none => (fs.put filePath buffer, none)

/-! ## Examples -/

/-- A deployment with one container `app` whose environment list is `env`. -/
def appDeployment (env : List EnvVar) : Deployment Unit :=
  { Kind := "Deployment"
    Name := "svc"
    other := ()
    Spec :=
      { other := ()
        Template :=
          { other := ()
            Spec :=
              { other := ()
                Containers := [{ Name := "app", Env := env, other := () }] } } } }

/-- A ConfigMap named `svc-config`. -/
def svcConfigMap : ConfigMap Unit := { Kind := "ConfigMap", Name := "svc-config", other := () }

/-- A Secret named `svc-secret`. -/
def svcSecret : Secret Unit := { Kind := "Secret", Name := "svc-secret", other := () }

/-- A file system in which every path holds `contents`. -/
def fileWith (contents : Bytes) : Ioutil where
  ReadFile := fun _ => .ok contents

/-- What `yaml.Unmarshal` does with a `v1.Secret` target on four documents.
`kind: Secret` followed by `data: 5`: the JSON decoder stores `kind`, cannot
store the number `5` in the map `data`, goes on, and returns the type error at
the end (`encoding/json`: "Unmarshal skips that field and completes the
unmarshaling as best it can ... returns an UnmarshalTypeError describing the
earliest such error").  `foo: bar`: no field of the target is named, the
target is left as it is, no error.  A document that is not YAML is rejected
before the target is touched. -/
def sampleSecretYaml : Yaml (Secret Unit) where
  Unmarshal := fun document secret =>
    if document = "kind: Secret\ndata: 5\n".toList then
      ({ secret with Kind := "Secret" },
        some "error unmarshaling JSON: json: cannot unmarshal number into Go value of type map[string][]uint8")
    else if document = "kind: Secret\nmetadata:\n  name: svc-secret\n".toList then
      ({ secret with Kind := "Secret", Name := "svc-secret" }, none)
    else if document = "foo: bar\n".toList then (secret, none)
    else (secret, some "error converting YAML to JSON")

/-- What `yaml.Unmarshal` does with a `v1.ConfigMap` target on three kinds of
document: a ConfigMap manifest, a document naming no field of the target, and
anything else, taken as not being YAML. -/
def sampleConfigMapYaml : Yaml (ConfigMap Unit) where
  Unmarshal := fun document configMap =>
    if document = "kind: ConfigMap\nmetadata:\n  name: svc-config\n".toList then
      ({ configMap with Kind := "ConfigMap", Name := "svc-config" }, none)
    else if document = "foo: bar\n".toList then (configMap, none)
    else (configMap, some "error converting YAML to JSON")

/-- An encoder stage that produces `text` for every object. -/
def encoderOf (text : Bytes) : Encoder Unit where
  Marshal := fun _ => .ok []
  JSONToYAML := fun _ => .ok text

/-- An operating system on which `os.Create` and `Write` never fail. -/
def reliableOs : Os where
  createError := fun _ _ => none
  writeError := fun _ _ => none

/-- An encoder stage whose `json.Marshal` fails for every object. -/
def failingEncoder : Encoder Unit where
  Marshal := fun _ => .error "json: unsupported type"
  JSONToYAML := fun _ => .ok []

/-- A file system with the single file `svc.yaml`, holding `contents`. -/
def oneFile (contents : Bytes) : FileSystem :=
  fun p => if p = "svc.yaml" then some contents else none

/-- What `yaml.Unmarshal` does with a `v1.ConfigMap` target on two manifests.
The JSON decoder sets the fields a document names and leaves the others of the
target as they are (`encoding/json`: decoding into a struct stores the keys
found, and keys without a field in the struct are ignored): the manifest of a
Deployment named `web` sets `Kind` and `Name`; the document `kind: ConfigMap`
sets `Kind` only. -/
def mergingConfigMapYaml : Yaml (ConfigMap Unit) where
  Unmarshal := fun document configMap =>
    if document = "kind: Deployment\nmetadata:\n  name: web\n".toList then
      ({ configMap with Kind := "Deployment", Name := "web" }, none)
    else if document = "kind: ConfigMap\n".toList then
      ({ configMap with Kind := "ConfigMap" }, none)
    else (configMap, some "error converting YAML to JSON")

/-! ## Theorems: `UpdateDeployment` -/

section InjectorFacts

variable {Other : Type}

theorem findContainer_eq_none {containerName : String} {containers : List (Container Other)}
    (h : ∀ c ∈ containers, c.Name ≠ containerName) :
    findContainer containerName containers = none := by
  induction containers with
  | nil => rfl
  | cons c rest ih =>
    have hc : c.Name ≠ containerName := h c (List.mem_cons_self _ _)
    have hrest : ∀ c ∈ rest, c.Name ≠ containerName :=
      fun c hmem => h c (List.mem_cons_of_mem _ hmem)
    simp [findContainer, hc, ih hrest]

theorem findContainer_some {containerName : String} {containers : List (Container Other)}
    {idx : Nat} (h : findContainer containerName containers = some idx) :
    ∃ c, containers[idx]? = some c ∧ c.Name = containerName := by
  induction containers generalizing idx with
  | nil => simp [findContainer] at h
  | cons c rest ih =>
    by_cases hc : c.Name = containerName
    · simp [findContainer, hc] at h
      subst h
      exact ⟨c, by simp, hc⟩
    · rw [findContainer, if_neg hc] at h
      cases hj : findContainer containerName rest with
      | none => simp [hj] at h
      | some j =>
      simp only [hj, Option.map_some', Option.some.injEq] at h
      subst h
      obtain ⟨c2, hc2, hname⟩ := ih hj
      exact ⟨c2, by simpa using hc2, hname⟩

theorem scanEnv_absent (strings : Strings) (v : VariableDef) (env : List EnvVar)
    (src : Option EnvVarSource) (h : ∀ e ∈ env, e.Name ≠ strings.ToUpper v.Name) :
    (scanEnv strings v env src).1 = src := by
  induction env with
  | nil => rfl
  | cons e rest ih =>
    have he : e.Name ≠ strings.ToUpper v.Name := h e (List.mem_cons_self _ _)
    have hrest : ∀ e ∈ rest, e.Name ≠ strings.ToUpper v.Name :=
      fun e hmem => h e (List.mem_cons_of_mem _ hmem)
    simp [scanEnv, he, ih hrest]

theorem scanEnv_present (strings : Strings) (v : VariableDef) (env : List EnvVar)
    (src : Option EnvVarSource) (h : ∃ e ∈ env, e.Name = strings.ToUpper v.Name) :
    (scanEnv strings v env src).1 = none := by
  induction env with
  | nil => simp at h
  | cons e rest ih =>
    by_cases he : e.Name = strings.ToUpper v.Name
    · simp [scanEnv, he]
    · have hrest : ∃ e ∈ rest, e.Name = strings.ToUpper v.Name := by
        obtain ⟨e2, hmem, hname⟩ := h
        rcases List.mem_cons.mp hmem with rfl | hmem
        · exact absurd hname he
        · exact ⟨e2, hmem, hname⟩
      simp [scanEnv, he, ih hrest]

theorem findContainer_modify (containerName : String) (env : List EnvVar) :
    ∀ (containers : List (Container Other)) (i : Nat) (d : Container Other),
      findContainer containerName containers = some i → containers[i]? = some d →
      findContainer containerName
          (containers.modify (fun container => { container with Env := env }) i) = some i ∧
        (containers.modify (fun container => { container with Env := env }) i)[i]?
          = some { d with Env := env } := by
  intro containers
  induction containers with
  | nil => intro i d h; simp [findContainer] at h
  | cons a rest ih =>
    intro i d h hd
    by_cases ha : a.Name = containerName
    · simp [findContainer, ha] at h
      subst h
      simp at hd
      subst hd
      simp [findContainer, ha]
    · rw [findContainer, if_neg ha] at h
      cases hj : findContainer containerName rest with
      | none => simp [hj] at h
      | some j =>
      simp only [hj, Option.map_some', Option.some.injEq] at h
      subst h
      have hd2 : rest[j]? = some d := by simpa using hd
      obtain ⟨h1, h2⟩ := ih j d hj hd2
      refine ⟨?_, ?_⟩
      · rw [List.modify_succ_cons, findContainer, if_neg ha, h1]
        rfl
      · rw [List.modify_succ_cons, List.getElem?_cons_succ]
        exact h2

theorem targetEnv_setContainerEnv (deployment : Deployment Other) (containerName : String)
    (idx : Nat) (env : List EnvVar)
    (hidx : findContainer containerName deployment.Spec.Template.Spec.Containers = some idx) :
    targetEnv (setContainerEnv deployment idx env) containerName = some env := by
  obtain ⟨c, hc, hname⟩ := findContainer_some hidx
  obtain ⟨h1, h2⟩ := findContainer_modify containerName env _ idx c hidx hc
  simp [targetEnv, setContainerEnv, h1, h2]

theorem setContainerEnv_setContainerEnv (deployment : Deployment Other) (idx : Nat)
    (env1 env2 : List EnvVar) :
    setContainerEnv (setContainerEnv deployment idx env1) idx env2
      = setContainerEnv deployment idx env2 := by
  simp only [setContainerEnv, List.modify_modify_eq]
  rfl

theorem setContainerEnv_self (deployment : Deployment Other) (idx : Nat)
    (dstContainer : Container Other)
    (h : deployment.Spec.Template.Spec.Containers[idx]? = some dstContainer) :
    setContainerEnv deployment idx dstContainer.Env = deployment := by
  have key : ∀ (containers : List (Container Other)) (i : Nat),
      containers[i]? = some dstContainer →
      containers.modify (fun container => { container with Env := dstContainer.Env }) i
        = containers := by
    intro containers
    induction containers with
    | nil => intro i h; simp at h
    | cons a rest ih =>
      intro i h
      cases i with
      | zero =>
        simp at h
        subst h
        simp
      | succ j =>
        simp at h
        simp [ih j h]
  simp only [setContainerEnv, key _ idx h]

theorem targetEnv_some {deployment : Deployment Other} {containerName : String}
    {env : List EnvVar} (h : targetEnv deployment containerName = some env) :
    ∃ idx dstContainer,
      findContainer containerName deployment.Spec.Template.Spec.Containers = some idx ∧
      deployment.Spec.Template.Spec.Containers[idx]? = some dstContainer ∧
      dstContainer.Env = env := by
  unfold targetEnv at h
  cases hidx : findContainer containerName deployment.Spec.Template.Spec.Containers with
  | none => simp [hidx] at h
  | some idx =>
    simp only [hidx] at h
    cases hdst : deployment.Spec.Template.Spec.Containers[idx]? with
    | none => simp [hdst] at h
    | some dstContainer =>
      simp only [hdst, Option.map_some', Option.some.injEq] at h
      exact ⟨idx, dstContainer, rfl, hdst, h⟩

theorem UpdateDeployment_found (strings : Strings) (deployment : Deployment Other)
    (configMap : ConfigMap Other) (secret : Secret Other) (containerName : String)
    (vars : List VariableDef) (overwriteEnv : Bool) (idx : Nat) (dstContainer : Container Other)
    (hidx : findContainer containerName deployment.Spec.Template.Spec.Containers = some idx)
    (hdst : deployment.Spec.Template.Spec.Containers[idx]? = some dstContainer) :
    UpdateDeployment strings deployment configMap secret containerName vars overwriteEnv
      = (setContainerEnv deployment idx
          (injectVariables strings configMap secret vars
            (if overwriteEnv then [] else dstContainer.Env)).1,
         (injectVariables strings configMap secret vars
            (if overwriteEnv then [] else dstContainer.Env)).2) := by
  simp only [UpdateDeployment, hidx, hdst]

theorem injectVariables_single_absent (strings : Strings) (configMap : ConfigMap Other)
    (secret : Secret Other) (v : VariableDef) (env : List EnvVar) (source : EnvVarSource)
    (hbuild : buildEnvVarSource strings configMap secret v = .ok (some source))
    (hfresh : ∀ e ∈ env, e.Name ≠ strings.ToUpper v.Name) :
    injectVariables strings configMap secret [v] env
      = (env ++ [{ Name := strings.ToUpper v.Name, Value := "", ValueFrom := some source }],
         .ok) := by
  simp [injectVariables, hbuild, scanEnv_absent strings v env (some source) hfresh]

theorem injectVariables_single_present (strings : Strings) (configMap : ConfigMap Other)
    (secret : Secret Other) (v : VariableDef) (env : List EnvVar) (source : Option EnvVarSource)
    (hbuild : buildEnvVarSource strings configMap secret v = .ok source)
    (hpresent : ∃ e ∈ env, e.Name = strings.ToUpper v.Name) :
    injectVariables strings configMap secret [v] env = (env, .ok) := by
  simp [injectVariables, hbuild, scanEnv_present strings v env source hpresent]

/-- The range loop of lines 246-253 writes to its loop variable only: when the
target container already has an entry named after the variable, a call with
that one variable returns normally and leaves the whole deployment as it
was. -/
theorem UpdateDeployment_present_entry_untouched (strings : Strings)
    (deployment : Deployment Other) (configMap : ConfigMap Other) (secret : Secret Other)
    (containerName : String) (v : VariableDef) (env : List EnvVar)
    (source : Option EnvVarSource)
    (htarget : targetEnv deployment containerName = some env)
    (hbuild : buildEnvVarSource strings configMap secret v = .ok source)
    (hpresent : ∃ e ∈ env, e.Name = strings.ToUpper v.Name) :
    UpdateDeployment strings deployment configMap secret containerName [v] false
      = (deployment, .ok) := by
  obtain ⟨idx, dstContainer, hidx, hdst, rfl⟩ := targetEnv_some htarget
  rw [UpdateDeployment_found strings deployment configMap secret containerName [v] false idx
    dstContainer hidx hdst]
  simp only [Bool.false_eq_true, if_false,
    injectVariables_single_present strings configMap secret v dstContainer.Env source hbuild
      hpresent, setContainerEnv_self deployment idx dstContainer hdst]

/-- C1, evaluated on the scenario the specification gives: container `app`
already holds `API_KEY` with the literal value `plaintext`; after injecting
the `SecretRef` variable `api_key` with `overwrite = false` the call returns
normally and the entry still has `Value = "plaintext"` and no `ValueFrom`. -/
theorem UpdateDeployment_existing_entry_kept :
    UpdateDeployment asciiStrings
        (appDeployment [{ Name := "API_KEY", Value := "plaintext", ValueFrom := none }])
        svcConfigMap svcSecret "app"
        [{ Name := "api_key", VarType := .SECRET, Value := .str "" }] false
      = (appDeployment [{ Name := "API_KEY", Value := "plaintext", ValueFrom := none }],
         .ok) := by
  decide

/-- C2 (append case): when the target container has no entry named
`ToUpper v.Name`, a call with `overwrite = false` and the single variable `v`
returns normally and the container's list is the old list followed by one
entry with that name, an empty `Value`, and the reference of `v`'s type:
a `ConfigMapKeyRef` to `configMap.Name` with key `ToLower v.Name`, a
`SecretKeyRef` to `secret.Name` with key `ToLower v.Name`, or a `FieldRef`
whose path is the string payload of `v`. -/
theorem UpdateDeployment_append (strings : Strings) (deployment : Deployment Other)
    (configMap : ConfigMap Other) (secret : Secret Other) (containerName : String)
    (v : VariableDef) (env : List EnvVar)
    (htarget : targetEnv deployment containerName = some env)
    (hfresh : ∀ e ∈ env, e.Name ≠ strings.ToUpper v.Name) :
    (v.VarType = .CONFIGMAP →
      (UpdateDeployment strings deployment configMap secret containerName [v] false).2 = .ok ∧
      targetEnv (UpdateDeployment strings deployment configMap secret containerName [v] false).1
          containerName
        = some (env ++ [{ Name := strings.ToUpper v.Name, Value := "",
                          ValueFrom := some
                            { FieldRef := none
                              ConfigMapKeyRef := some { Name := configMap.Name
                                                        Key := strings.ToLower v.Name }
                              SecretKeyRef := none } }])) ∧
    (v.VarType = .SECRET →
      (UpdateDeployment strings deployment configMap secret containerName [v] false).2 = .ok ∧
      targetEnv (UpdateDeployment strings deployment configMap secret containerName [v] false).1
          containerName
        = some (env ++ [{ Name := strings.ToUpper v.Name, Value := "",
                          ValueFrom := some
                            { FieldRef := none
                              ConfigMapKeyRef := none
                              SecretKeyRef := some { Name := secret.Name
                                                     Key := strings.ToLower v.Name } } }])) ∧
    (∀ fieldPath : String, v.VarType = .REFERENCE → v.Value = .str fieldPath →
      (UpdateDeployment strings deployment configMap secret containerName [v] false).2 = .ok ∧
      targetEnv (UpdateDeployment strings deployment configMap secret containerName [v] false).1
          containerName
        = some (env ++ [{ Name := strings.ToUpper v.Name, Value := "",
                          ValueFrom := some
                            { FieldRef := some { APIVersion := "", FieldPath := fieldPath }
                              ConfigMapKeyRef := none
                              SecretKeyRef := none } }])) := by
  obtain ⟨idx, dstContainer, hidx, hdst, rfl⟩ := targetEnv_some htarget
  have step : ∀ source : EnvVarSource,
      buildEnvVarSource strings configMap secret v = .ok (some source) →
      (UpdateDeployment strings deployment configMap secret containerName [v] false).2 = .ok ∧
      targetEnv (UpdateDeployment strings deployment configMap secret containerName [v] false).1
          containerName
        = some (dstContainer.Env ++
            [{ Name := strings.ToUpper v.Name, Value := "", ValueFrom := some source }]) := by
    intro source hbuild
    rw [UpdateDeployment_found strings deployment configMap secret containerName [v] false idx
      dstContainer hidx hdst]
    simp only [Bool.false_eq_true, if_false,
      injectVariables_single_absent strings configMap secret v dstContainer.Env source hbuild
        hfresh]
    exact ⟨trivial, targetEnv_setContainerEnv deployment containerName idx _ hidx⟩
  refine ⟨fun ht => step _ ?_, fun ht => step _ ?_, fun fieldPath ht hv => step _ ?_⟩
  · simp [buildEnvVarSource, ht]
  · simp [buildEnvVarSource, ht]
  · simp [buildEnvVarSource, ht, hv]

/-- Witness of C2 on the scenario of the specification: container `app`
without entries, `SecretRef` variable `api_key`, secret `svc-secret`. -/
theorem UpdateDeployment_append_witness :
    (UpdateDeployment asciiStrings (appDeployment []) svcConfigMap svcSecret "app"
        [{ Name := "api_key", VarType := .SECRET, Value := .str "" }] false).2 = .ok ∧
    targetEnv (UpdateDeployment asciiStrings (appDeployment []) svcConfigMap svcSecret "app"
        [{ Name := "api_key", VarType := .SECRET, Value := .str "" }] false).1 "app"
      = some [{ Name := "API_KEY", Value := "",
                ValueFrom := some { FieldRef := none
                                    ConfigMapKeyRef := none
                                    SecretKeyRef := some { Name := "svc-secret"
                                                           Key := "api_key" } } }] :=
  (UpdateDeployment_append asciiStrings (appDeployment []) svcConfigMap svcSecret "app"
    { Name := "api_key", VarType := .SECRET, Value := .str "" } []
    (by decide) (by decide)).2.1 (by decide)

/-- C3, evaluated: two variables with the same upper-cased name `API_KEY`,
first a `SecretRef`, then a `ConfigMapRef`, injected into a container without
that entry.  The container ends with one `API_KEY` entry, and its `ValueFrom`
is the reference built from the first variable. -/
theorem UpdateDeployment_duplicate_name_first_kept :
    UpdateDeployment asciiStrings (appDeployment []) svcConfigMap svcSecret "app"
        [{ Name := "api_key", VarType := .SECRET, Value := .str "" },
         { Name := "API_KEY", VarType := .CONFIGMAP, Value := .str "" }] false
      = (appDeployment
          [{ Name := "API_KEY", Value := "",
             ValueFrom := some { FieldRef := none
                                 ConfigMapKeyRef := none
                                 SecretKeyRef := some { Name := "svc-secret"
                                                        Key := "api_key" } } }],
         .ok) := by
  decide

/-- C4 (container not found): when no container of the pod template has the
requested name, the call returns the error of line 213 and the deployment is
exactly the one passed in, for every variable list and either value of
`overwriteEnv`. -/
theorem UpdateDeployment_container_not_found (strings : Strings)
    (deployment : Deployment Other) (configMap : ConfigMap Other) (secret : Secret Other)
    (containerName : String) (vars : List VariableDef) (overwriteEnv : Bool)
    (habsent : ∀ c ∈ deployment.Spec.Template.Spec.Containers, c.Name ≠ containerName) :
    UpdateDeployment strings deployment configMap secret containerName vars overwriteEnv
      = (deployment,
         .error ("Could not find container \x27" ++ containerName ++ "\x27 in deployment")) := by
  simp only [UpdateDeployment, findContainer_eq_none habsent]

/-- Witness of C4: the deployment with the single container `app`, asked for
container `web`, with `overwrite = true`. -/
theorem UpdateDeployment_container_not_found_witness :
    UpdateDeployment asciiStrings
        (appDeployment [{ Name := "API_KEY", Value := "plaintext", ValueFrom := none }])
        svcConfigMap svcSecret "web"
        [{ Name := "api_key", VarType := .SECRET, Value := .str "" }] true
      = (appDeployment [{ Name := "API_KEY", Value := "plaintext", ValueFrom := none }],
         .error ("Could not find container \x27" ++ "web" ++ "\x27 in deployment")) :=
  UpdateDeployment_container_not_found asciiStrings _ svcConfigMap svcSecret "web" _ true
    (by decide)

/-- C5 (clear-all): with `overwrite = true` the result does not depend on the
entries the target container had: replacing them by any other list `pre`
gives the same result, and the result equals that of injecting the same
variables with `overwrite = false` into the deployment whose target container
has an empty list.  With one variable of a recognised type (a `FieldRef`
carrying a string payload) the call returns normally and the final list has
exactly one entry. -/
theorem UpdateDeployment_overwrite_replaces (strings : Strings)
    (deployment : Deployment Other) (configMap : ConfigMap Other) (secret : Secret Other)
    (containerName : String) (vars : List VariableDef) (idx : Nat)
    (hidx : findContainer containerName deployment.Spec.Template.Spec.Containers = some idx) :
    (∀ pre : List EnvVar,
      UpdateDeployment strings (setContainerEnv deployment idx pre) configMap secret
          containerName vars true
        = UpdateDeployment strings deployment configMap secret containerName vars true) ∧
    UpdateDeployment strings deployment configMap secret containerName vars true
      = UpdateDeployment strings (setContainerEnv deployment idx []) configMap secret
          containerName vars false ∧
    (∀ v : VariableDef, vars = [v] →
      (v.VarType = .CONFIGMAP ∨ v.VarType = .SECRET ∨
        (v.VarType = .REFERENCE ∧ ∃ fieldPath, v.Value = .str fieldPath)) →
      (UpdateDeployment strings deployment configMap secret containerName vars true).2 = .ok ∧
      ∃ entry, targetEnv
          (UpdateDeployment strings deployment configMap secret containerName vars true).1
          containerName = some [entry]) := by
  obtain ⟨dstContainer, hdst, _⟩ := findContainer_some hidx
  have hset : ∀ pre : List EnvVar,
      UpdateDeployment strings (setContainerEnv deployment idx pre) configMap secret
          containerName vars true
        = (setContainerEnv deployment idx (injectVariables strings configMap secret vars []).1,
           (injectVariables strings configMap secret vars []).2) ∧
      UpdateDeployment strings (setContainerEnv deployment idx pre) configMap secret
          containerName vars false
        = (setContainerEnv deployment idx (injectVariables strings configMap secret vars pre).1,
           (injectVariables strings configMap secret vars pre).2) := by
    intro pre
    obtain ⟨h1, h2⟩ := findContainer_modify containerName pre _ idx dstContainer hidx hdst
    have h1' : findContainer containerName
        (setContainerEnv deployment idx pre).Spec.Template.Spec.Containers = some idx := h1
    have h2' : (setContainerEnv deployment idx pre).Spec.Template.Spec.Containers[idx]?
        = some { dstContainer with Env := pre } := h2
    constructor
    · rw [UpdateDeployment_found strings _ configMap secret containerName vars true idx _ h1' h2']
      simp only [if_true, setContainerEnv_setContainerEnv]
    · rw [UpdateDeployment_found strings _ configMap secret containerName vars false idx _ h1' h2']
      simp only [Bool.false_eq_true, if_false, setContainerEnv_setContainerEnv]
  have hplain : UpdateDeployment strings deployment configMap secret containerName vars true
      = (setContainerEnv deployment idx (injectVariables strings configMap secret vars []).1,
         (injectVariables strings configMap secret vars []).2) := by
    rw [UpdateDeployment_found strings deployment configMap secret containerName vars true idx
      dstContainer hidx hdst]
    simp only [if_true]
  refine ⟨fun pre => ?_, ?_, ?_⟩
  · rw [(hset pre).1, hplain]
  · rw [(hset []).2, hplain]
  · intro v hv hrec
    subst hv
    have hbuild : ∃ source, buildEnvVarSource strings configMap secret v = .ok (some source) := by
      rcases hrec with ht | ht | ⟨ht, fieldPath, hp⟩
      · simp [buildEnvVarSource, ht]
      · simp [buildEnvVarSource, ht]
      · simp [buildEnvVarSource, ht, hp]
    obtain ⟨source, hsource⟩ := hbuild
    rw [hplain, injectVariables_single_absent strings configMap secret v [] source hsource
      (by simp)]
    exact ⟨rfl, _, targetEnv_setContainerEnv deployment containerName idx _ hidx⟩

/-- Witness of C5: three pre-existing entries, one `SecretRef` variable. -/
theorem UpdateDeployment_overwrite_replaces_witness :
    (UpdateDeployment asciiStrings
        (appDeployment [{ Name := "A", Value := "1", ValueFrom := none },
                        { Name := "B", Value := "2", ValueFrom := none },
                        { Name := "API_KEY", Value := "plaintext", ValueFrom := none }])
        svcConfigMap svcSecret "app"
        [{ Name := "api_key", VarType := .SECRET, Value := .str "" }] true).2 = .ok ∧
    ∃ entry, targetEnv
        (UpdateDeployment asciiStrings
          (appDeployment [{ Name := "A", Value := "1", ValueFrom := none },
                          { Name := "B", Value := "2", ValueFrom := none },
                          { Name := "API_KEY", Value := "plaintext", ValueFrom := none }])
          svcConfigMap svcSecret "app"
          [{ Name := "api_key", VarType := .SECRET, Value := .str "" }] true).1 "app"
      = some [entry] :=
  (UpdateDeployment_overwrite_replaces asciiStrings _ svcConfigMap svcSecret "app"
    [{ Name := "api_key", VarType := .SECRET, Value := .str "" }] 0 (by decide)).2.2
    _ rfl (Or.inr (Or.inl rfl))

end InjectorFacts

/-! ## Theorems: the readers -/

section LocatorFacts

variable {Obj : Type}

theorem decodeAll_cons (yaml : Yaml Obj) (obj : Obj) (document : Bytes) (rest : List Bytes) :
    decodeAll yaml obj (document :: rest)
      = decodeAll yaml (yaml.Unmarshal document obj).1 rest := rfl

theorem decodesAs_zero (yaml : Yaml Obj) (kindOf : Obj → String) (kind : String) (obj : Obj)
    (document : Bytes) (rest : List Bytes) :
    decodesAs yaml kindOf kind obj (document :: rest) 0
      = ((yaml.Unmarshal document obj).2.isNone &&
          decide (kindOf (yaml.Unmarshal document obj).1 = kind)) := by
  simp [decodesAs, decodeAll]

theorem decodesAs_succ (yaml : Yaml Obj) (kindOf : Obj → String) (kind : String) (obj : Obj)
    (document : Bytes) (rest : List Bytes) (j : Nat) :
    decodesAs yaml kindOf kind obj (document :: rest) (j + 1)
      = decodesAs yaml kindOf kind (yaml.Unmarshal document obj).1 rest j := by
  simp [decodesAs, decodeAll]

/-- The loop stops at the first document that decodes with the kind. -/
theorem scanDocuments_first_match (yaml : Yaml Obj) (kindOf : Obj → String) (kind : String) :
    ∀ (documents : List Bytes) (i : Nat) (obj : Obj) (idx k : Nat),
      (∀ j < k, decodesAs yaml kindOf kind obj documents j = false) →
      decodesAs yaml kindOf kind obj documents k = true →
      scanDocuments yaml kindOf kind documents i obj idx
        = (decodeAll yaml obj (documents.take (k + 1)), i + k) := by
  intro documents
  induction documents with
  | nil => intro i obj idx k _ hk; simp [decodesAs] at hk
  | cons document rest ih =>
    intro i obj idx k hbefore hk
    cases k with
    | zero =>
      rw [decodesAs_zero] at hk
      simp only [Bool.and_eq_true, decide_eq_true_eq, Option.isNone_iff_eq_none] at hk
      obtain ⟨herr, hkind⟩ := hk
      have hpair : yaml.Unmarshal document obj = ((yaml.Unmarshal document obj).1, none) := by
        rw [← herr]
      rw [scanDocuments, hpair]
      simp [hkind, decodeAll]
    | succ k =>
      have h0 := hbefore 0 (Nat.succ_pos k)
      rw [decodesAs_zero] at h0
      have hrest : ∀ j < k, decodesAs yaml kindOf kind (yaml.Unmarshal document obj).1 rest j
          = false := by
        intro j hj
        rw [← decodesAs_succ]
        exact hbefore (j + 1) (Nat.succ_lt_succ hj)
      rw [decodesAs_succ] at hk
      have hstep := ih (i + 1) (yaml.Unmarshal document obj).1 i k hrest hk
      rw [scanDocuments]
      cases herr : (yaml.Unmarshal document obj).2 with
      | some err =>
        have hpair : yaml.Unmarshal document obj
            = ((yaml.Unmarshal document obj).1, some err) := by rw [← herr]
        rw [hpair]
        simp only [hstep, List.take_succ_cons, decodeAll_cons]
        congr 1
        omega
      | none =>
        have hpair : yaml.Unmarshal document obj = ((yaml.Unmarshal document obj).1, none) := by
          rw [← herr]
        have hkind : ¬ kindOf (yaml.Unmarshal document obj).1 = kind := by
          simpa [herr] using h0
        rw [hpair]
        simp only [hkind, if_false, hstep, List.take_succ_cons, decodeAll_cons]
        congr 1
        omega

/-- When the discriminant of the target never equals the kind, it does not
equal it after the loop. -/
theorem scanDocuments_no_match (yaml : Yaml Obj) (kindOf : Obj → String) (kind : String) :
    ∀ (documents : List Bytes) (i : Nat) (obj : Obj) (idx : Nat),
      kindOf obj ≠ kind →
      (∀ j < documents.length, kindOf (decodeAll yaml obj (documents.take (j + 1))) ≠ kind) →
      kindOf (scanDocuments yaml kindOf kind documents i obj idx).1 ≠ kind := by
  intro documents
  induction documents with
  | nil => intro i obj idx hobj _; simpa [scanDocuments] using hobj
  | cons document rest ih =>
    intro i obj idx _ hall
    have h0 : kindOf (yaml.Unmarshal document obj).1 ≠ kind := by
      simpa [decodeAll] using hall 0 (by simp)
    have hrest : ∀ j < rest.length,
        kindOf (decodeAll yaml (yaml.Unmarshal document obj).1 (rest.take (j + 1))) ≠ kind := by
      intro j hj
      have := hall (j + 1) (by simpa using hj)
      simpa [List.take_succ_cons, decodeAll_cons] using this
    have hstep := ih (i + 1) (yaml.Unmarshal document obj).1 i h0 hrest
    rw [scanDocuments]
    cases herr : (yaml.Unmarshal document obj).2 with
    | some err =>
      have hpair : yaml.Unmarshal document obj
          = ((yaml.Unmarshal document obj).1, some err) := by rw [← herr]
      rw [hpair]
      exact hstep
    | none =>
      have hpair : yaml.Unmarshal document obj = ((yaml.Unmarshal document obj).1, none) := by
        rw [← herr]
      rw [hpair]
      simp only [h0, if_false]
      exact hstep

theorem decodeAll_take_succ (yaml : Yaml Obj) (obj : Obj) (documents : List Bytes) (i : Nat)
    (document : Bytes) (h : documents[i]? = some document) :
    decodeAll yaml obj (documents.take (i + 1))
      = (yaml.Unmarshal document (decodeAll yaml obj (documents.take i))).1 := by
  simp [decodeAll, List.take_succ, h, List.foldl_append]

/-- Documents that leave an empty target as it is leave it empty together. -/
theorem decodeAll_untouched (yaml : Yaml Obj) (zero : Obj) :
    ∀ documents : List Bytes,
      (∀ document ∈ documents, (yaml.Unmarshal document zero).1 = zero) →
      decodeAll yaml zero documents = zero := by
  intro documents
  induction documents with
  | nil => intro _; rfl
  | cons document rest ih =>
    intro h
    rw [decodeAll_cons, h document (List.mem_cons_self _ _)]
    exact ih (fun d hd => h d (List.mem_cons_of_mem _ hd))

/-- The test of the loop at document `i` is the test of the document by itself
when the documents before it store nothing in the target; this is the case
in which the loop does what a scan with a fresh target per document would. -/
theorem decodesAs_eq_deserializesAs (yaml : Yaml Obj) (kindOf : Obj → String) (kind : String)
    (zero : Obj) (documents : List Bytes) (i : Nat) (document : Bytes)
    (hdoc : documents[i]? = some document)
    (hbefore : ∀ earlier ∈ documents.take i, (yaml.Unmarshal earlier zero).1 = zero) :
    decodesAs yaml kindOf kind zero documents i
      = deserializesAs yaml kindOf kind zero document := by
  simp only [decodesAs, hdoc, deserializesAs,
    decodeAll_untouched yaml zero (documents.take i) hbefore]

/-- What the three readers compute after the file has been read, for a first
matching document `i`. -/
theorem scanDocuments_locates (yaml : Yaml Obj) (kindOf : Obj → String) (kind : String)
    (zero : Obj) (documents : List Bytes) (i : Nat)
    (hbefore : ∀ j < i, decodesAs yaml kindOf kind zero documents j = false)
    (hi : decodesAs yaml kindOf kind zero documents i = true) :
    ∃ document, documents[i]? = some document ∧
      scanDocuments yaml kindOf kind documents 0 zero 0
        = ((yaml.Unmarshal document (decodeAll yaml zero (documents.take i))).1, i) ∧
      kindOf (yaml.Unmarshal document (decodeAll yaml zero (documents.take i))).1 = kind ∧
      documents.take i ++ documents.drop (i + 1) = documents.eraseIdx i ∧
      (documents.eraseIdx i).length = documents.length - 1 := by
  cases hdoc : documents[i]? with
  | none => simp [decodesAs, hdoc] at hi
  | some document =>
    have hlt : i < documents.length := by
      rcases Nat.lt_or_ge i documents.length with h | h
      · exact h
      · rw [List.getElem?_eq_none h] at hdoc
        cases hdoc
    refine ⟨document, rfl, ?_, ?_, ?_, ?_⟩
    · rw [scanDocuments_first_match yaml kindOf kind documents 0 zero 0 i hbefore hi,
        decodeAll_take_succ yaml zero documents i document hdoc, Nat.zero_add]
    · have h2 : (yaml.Unmarshal document (decodeAll yaml zero (documents.take i))).2 = none ∧
          kindOf (yaml.Unmarshal document (decodeAll yaml zero (documents.take i))).1 = kind := by
        simpa [decodesAs, hdoc] using hi
      exact h2.2
    · exact (List.eraseIdx_eq_take_drop_succ documents i).symm
    · exact List.length_eraseIdx_of_lt hlt

theorem scanDocuments_fst_index (yaml : Yaml Obj) (kindOf : Obj → String) (kind : String) :
    ∀ (documents : List Bytes) (obj : Obj) (i idx i2 idx2 : Nat),
      (scanDocuments yaml kindOf kind documents i obj idx).1
        = (scanDocuments yaml kindOf kind documents i2 obj idx2).1 := by
  intro documents
  induction documents with
  | nil => intro obj i idx i2 idx2; rfl
  | cons document rest ih =>
    intro obj i idx i2 idx2
    rw [scanDocuments, scanDocuments]
    cases herr : (yaml.Unmarshal document obj).2 with
    | some err =>
      have hpair : yaml.Unmarshal document obj
          = ((yaml.Unmarshal document obj).1, some err) := by rw [← herr]
      rw [hpair]
      exact ih _ _ _ _ _
    | none =>
      have hpair : yaml.Unmarshal document obj = ((yaml.Unmarshal document obj).1, none) := by
        rw [← herr]
      rw [hpair]
      by_cases hkind : kindOf (yaml.Unmarshal document obj).1 = kind
      · simp only [hkind, if_true]
      · simp only [hkind, if_false]
        exact ih _ _ _ _ _

/-- A document on which `yaml.Unmarshal` reports an error and leaves the
target as it was is skipped: the loop ends with the same object as on the
documents without it.  The hypothesis on the target is what the loop of the
readers relies on and what a decoder that stores fields before it reports a
type error does not give. -/
theorem scanDocuments_skips_untouched_error (yaml : Yaml Obj) (kindOf : Obj → String)
    (kind : String) (document : Bytes) (post : List Bytes) :
    ∀ (pre : List Bytes) (obj : Obj) (i idx i2 idx2 : Nat),
      (yaml.Unmarshal document (decodeAll yaml obj pre)).2 ≠ none →
      (yaml.Unmarshal document (decodeAll yaml obj pre)).1 = decodeAll yaml obj pre →
      (scanDocuments yaml kindOf kind (pre ++ document :: post) i obj idx).1
        = (scanDocuments yaml kindOf kind (pre ++ post) i2 obj idx2).1 := by
  intro pre
  induction pre with
  | nil =>
    intro obj i idx i2 idx2 herr hsame
    simp only [decodeAll, List.foldl_nil] at herr hsame
    rw [List.nil_append, List.nil_append, scanDocuments]
    cases he : (yaml.Unmarshal document obj).2 with
    | none => exact absurd he herr
    | some err =>
      have hpair : yaml.Unmarshal document obj = (obj, some err) :=
        Prod.ext hsame he
      rw [hpair]
      exact scanDocuments_fst_index yaml kindOf kind post obj _ _ _ _
  | cons p pre ih =>
    intro obj i idx i2 idx2 herr hsame
    rw [decodeAll_cons] at herr hsame
    rw [List.cons_append, List.cons_append, scanDocuments, scanDocuments]
    cases he : (yaml.Unmarshal p obj).2 with
    | some err =>
      have hpair : yaml.Unmarshal p obj = ((yaml.Unmarshal p obj).1, some err) := by rw [← he]
      rw [hpair]
      exact ih _ _ _ _ _ herr hsame
    | none =>
      have hpair : yaml.Unmarshal p obj = ((yaml.Unmarshal p obj).1, none) := by rw [← he]
      rw [hpair]
      by_cases hkind : kindOf (yaml.Unmarshal p obj).1 = kind
      · simp only [hkind, if_true]
      · simp only [hkind, if_false]
        exact ih _ _ _ _ _ herr hsame

end LocatorFacts

section ReaderFacts

variable {Other : Type} [Inhabited Other]

/-- What the three readers do, stated on the shared target of their loop:
when the file is read and document `i` of its split content is the first at
which the test of the loop succeeds (`decodesAs`), the reader succeeds; the
object it returns is the shared target after document `i` has been decoded
into it, on top of what the earlier documents left there; the leftovers are
the documents with index `i` erased.  This is a fact about the loop, not about
the documents taken one by one. -/
theorem Read_locates_first_match (ioutil : Ioutil) (filePath : String) (contents : Bytes)
    (i : Nat) (hread : ioutil.ReadFile filePath = .ok contents) :
    (∀ yaml : Yaml (Secret Other),
      (∀ j < i, decodesAs yaml (·.Kind) "Secret" zeroSecret (splitYamlDocument contents) j
        = false) →
      decodesAs yaml (·.Kind) "Secret" zeroSecret (splitYamlDocument contents) i = true →
      ∃ document, (splitYamlDocument contents)[i]? = some document ∧
        ReadSecrets ioutil yaml filePath
          = .ok ((yaml.Unmarshal document
                    (decodeAll yaml zeroSecret ((splitYamlDocument contents).take i))).1,
                 (splitYamlDocument contents).eraseIdx i) ∧
        ((splitYamlDocument contents).eraseIdx i).length
          = (splitYamlDocument contents).length - 1) ∧
    (∀ yaml : Yaml (ConfigMap Other),
      (∀ j < i, decodesAs yaml (·.Kind) "ConfigMap" zeroConfigMap (splitYamlDocument contents) j
        = false) →
      decodesAs yaml (·.Kind) "ConfigMap" zeroConfigMap (splitYamlDocument contents) i = true →
      ∃ document, (splitYamlDocument contents)[i]? = some document ∧
        ReadConfigMap ioutil yaml filePath
          = .ok ((yaml.Unmarshal document
                    (decodeAll yaml zeroConfigMap ((splitYamlDocument contents).take i))).1,
                 (splitYamlDocument contents).eraseIdx i) ∧
        ((splitYamlDocument contents).eraseIdx i).length
          = (splitYamlDocument contents).length - 1) ∧
    (∀ yaml : Yaml (Deployment Other),
      (∀ j < i, decodesAs yaml (·.Kind) "Deployment" zeroDeployment (splitYamlDocument contents) j
        = false) →
      decodesAs yaml (·.Kind) "Deployment" zeroDeployment (splitYamlDocument contents) i = true →
      ∃ document, (splitYamlDocument contents)[i]? = some document ∧
        ReadDeployment ioutil yaml filePath
          = .ok ((yaml.Unmarshal document
                    (decodeAll yaml zeroDeployment ((splitYamlDocument contents).take i))).1,
                 (splitYamlDocument contents).eraseIdx i) ∧
        ((splitYamlDocument contents).eraseIdx i).length
          = (splitYamlDocument contents).length - 1) := by
  refine ⟨fun yaml hbefore hi => ?_, fun yaml hbefore hi => ?_, fun yaml hbefore hi => ?_⟩
  · obtain ⟨document, hdoc, hscan, hkind, hleft, hlen⟩ :=
      scanDocuments_locates yaml (·.Kind) "Secret" zeroSecret _ i hbefore hi
    refine ⟨document, hdoc, ?_, hlen⟩
    simp only [ReadSecrets, hread, hscan, hleft]
    rw [if_neg (not_not_intro hkind)]
  · obtain ⟨document, hdoc, hscan, hkind, hleft, hlen⟩ :=
      scanDocuments_locates yaml (·.Kind) "ConfigMap" zeroConfigMap _ i hbefore hi
    refine ⟨document, hdoc, ?_, hlen⟩
    simp only [ReadConfigMap, hread, hscan, hleft]
    rw [if_neg (not_not_intro hkind)]
  · obtain ⟨document, hdoc, hscan, hkind, hleft, hlen⟩ :=
      scanDocuments_locates yaml (·.Kind) "Deployment" zeroDeployment _ i hbefore hi
    refine ⟨document, hdoc, ?_, hlen⟩
    simp only [ReadDeployment, hread, hscan, hleft]
    rw [if_neg (not_not_intro hkind)]

/-- What makes the three readers fail, stated on the shared target of their
loop: when the file is read and the discriminant of the target is never the
requested kind after a document of the split content has been decoded, with
or without an error, the reader returns its not-found error. -/
theorem Read_fails_without_match (ioutil : Ioutil) (filePath : String) (contents : Bytes)
    (hread : ioutil.ReadFile filePath = .ok contents) :
    (∀ yaml : Yaml (Secret Other),
      (∀ j < (splitYamlDocument contents).length,
        (decodeAll yaml zeroSecret ((splitYamlDocument contents).take (j + 1))).Kind
          ≠ "Secret") →
      ReadSecrets ioutil yaml filePath = .error "Could not unmarshall Secrets") ∧
    (∀ yaml : Yaml (ConfigMap Other),
      (∀ j < (splitYamlDocument contents).length,
        (decodeAll yaml zeroConfigMap ((splitYamlDocument contents).take (j + 1))).Kind
          ≠ "ConfigMap") →
      ReadConfigMap ioutil yaml filePath = .error "Could not unmarshall ConfigMap") ∧
    (∀ yaml : Yaml (Deployment Other),
      (∀ j < (splitYamlDocument contents).length,
        (decodeAll yaml zeroDeployment ((splitYamlDocument contents).take (j + 1))).Kind
          ≠ "Deployment") →
      ReadDeployment ioutil yaml filePath = .error "Could not unmarshall Deployment") := by
  refine ⟨fun yaml hall => ?_, fun yaml hall => ?_, fun yaml hall => ?_⟩
  · have h := scanDocuments_no_match yaml (·.Kind) "Secret" _ 0 zeroSecret 0
      (by simp [zeroSecret]) hall
    simp only [ReadSecrets, hread]
    rw [if_pos h]
  · have h := scanDocuments_no_match yaml (·.Kind) "ConfigMap" _ 0 zeroConfigMap 0
      (by simp [zeroConfigMap]) hall
    simp only [ReadConfigMap, hread]
    rw [if_pos h]
  · have h := scanDocuments_no_match yaml (·.Kind) "Deployment" _ 0 zeroDeployment 0
      (by simp [zeroDeployment]) hall
    simp only [ReadDeployment, hread]
    rw [if_pos h]

end ReaderFacts

/-- An instance of `Read_locates_first_match`: a file of three documents of
which the second is a ConfigMap, the first names no field of a ConfigMap and
the third is malformed. -/
theorem Read_locates_first_match_witness :
    ∃ document,
      (splitYamlDocument
        "foo: bar\n---\nkind: ConfigMap\nmetadata:\n  name: svc-config\n---\n: : :\n".toList)[1]?
        = some document ∧
      ReadConfigMap
          (fileWith
            "foo: bar\n---\nkind: ConfigMap\nmetadata:\n  name: svc-config\n---\n: : :\n".toList)
          sampleConfigMapYaml "svc.yaml"
        = .ok ((sampleConfigMapYaml.Unmarshal document
                  (decodeAll sampleConfigMapYaml zeroConfigMap
                    ((splitYamlDocument
                      "foo: bar\n---\nkind: ConfigMap\nmetadata:\n  name: svc-config\n---\n: : :\n".toList).take
                      1))).1,
               (splitYamlDocument
                 "foo: bar\n---\nkind: ConfigMap\nmetadata:\n  name: svc-config\n---\n: : :\n".toList).eraseIdx
                 1) ∧
      ((splitYamlDocument
        "foo: bar\n---\nkind: ConfigMap\nmetadata:\n  name: svc-config\n---\n: : :\n".toList).eraseIdx
        1).length
        = (splitYamlDocument
            "foo: bar\n---\nkind: ConfigMap\nmetadata:\n  name: svc-config\n---\n: : :\n".toList).length
          - 1 :=
  (Read_locates_first_match
    (fileWith
      "foo: bar\n---\nkind: ConfigMap\nmetadata:\n  name: svc-config\n---\n: : :\n".toList)
    "svc.yaml" _ 1 rfl).2.1 sampleConfigMapYaml (by decide) (by decide)

/-- The reader on that file of three documents, evaluated. -/
theorem ReadConfigMap_three_documents :
    ReadConfigMap
        (fileWith
          "foo: bar\n---\nkind: ConfigMap\nmetadata:\n  name: svc-config\n---\n: : :\n".toList)
        sampleConfigMapYaml "svc.yaml"
      = .ok ({ Kind := "ConfigMap", Name := "svc-config", other := () },
             ["foo: bar\n".toList, ": : :\n".toList]) := by
  rfl

/-- C7, evaluated.  The first document of the file, `kind: Secret` followed by
`data: 5`, makes `yaml.Unmarshal` report an error after it has stored the
kind; the second names no field of a Secret.  `ReadSecrets` succeeds: the
object it returns has the kind the first document stored, and the leftovers
are the first document alone.  On the file without the first document
`ReadSecrets` fails. -/
theorem ReadSecrets_errored_document_decides :
    (sampleSecretYaml.Unmarshal "kind: Secret\ndata: 5\n".toList zeroSecret).2.isSome = true ∧
    ReadSecrets (fileWith "kind: Secret\ndata: 5\n---\nfoo: bar\n".toList) sampleSecretYaml
        "svc.yaml"
      = .ok ({ Kind := "Secret", Name := "", other := () }, ["kind: Secret\ndata: 5\n".toList]) ∧
    ReadSecrets (fileWith "foo: bar\n".toList) sampleSecretYaml "svc.yaml"
      = .error "Could not unmarshall Secrets" := by
  refine ⟨by decide, ?_, ?_⟩ <;> rfl

/-- An instance of `Read_fails_without_match`: a file of two documents,
neither of which sets the kind of the target. -/
theorem Read_fails_without_match_witness :
    ReadSecrets (fileWith "foo: bar\n---\n: : :\n".toList) sampleSecretYaml "svc.yaml"
      = .error "Could not unmarshall Secrets" :=
  (Read_fails_without_match (fileWith "foo: bar\n---\n: : :\n".toList) "svc.yaml" _ rfl).1
    sampleSecretYaml (by decide)

/-- C6, evaluated.  The file holds the manifest of a Deployment named `web`
and then the document `kind: ConfigMap`.  The second document is the first
that deserializes with the kind `ConfigMap`, and decoded by itself it gives a
ConfigMap without a name.  `ReadConfigMap` removes the right document, but the
object it returns has the name `web`, which the first document left in the
shared target: it is not the object decoded from the second document. -/
theorem ReadConfigMap_returns_leaked_name :
    deserializesAs mergingConfigMapYaml (·.Kind) "ConfigMap" zeroConfigMap
        "kind: Deployment\nmetadata:\n  name: web\n".toList = false ∧
    deserializesAs mergingConfigMapYaml (·.Kind) "ConfigMap" zeroConfigMap
        "kind: ConfigMap\n".toList = true ∧
    (mergingConfigMapYaml.Unmarshal "kind: ConfigMap\n".toList zeroConfigMap).1
      = { Kind := "ConfigMap", Name := "", other := () } ∧
    ReadConfigMap
        (fileWith "kind: Deployment\nmetadata:\n  name: web\n---\nkind: ConfigMap\n".toList)
        mergingConfigMapYaml "svc.yaml"
      = .ok ({ Kind := "ConfigMap", Name := "web", other := () },
             ["kind: Deployment\nmetadata:\n  name: web\n".toList]) := by
  refine ⟨by decide, by decide, by decide, ?_⟩
  rfl

/-- The index goes wrong too when an earlier document has left the kind in
the shared target: of the three documents, an errored Secret, `foo: bar` and a
Secret named `svc-secret`, the third is the first that deserializes with the
kind `Secret`; `ReadSecrets` takes the second for the match, returns an object
without a name and leaves the Secret among the leftovers. -/
theorem ReadSecrets_removes_other_document :
    deserializesAs sampleSecretYaml (·.Kind) "Secret" zeroSecret
        "kind: Secret\ndata: 5\n".toList = false ∧
    deserializesAs sampleSecretYaml (·.Kind) "Secret" zeroSecret "foo: bar\n".toList = false ∧
    deserializesAs sampleSecretYaml (·.Kind) "Secret" zeroSecret
        "kind: Secret\nmetadata:\n  name: svc-secret\n".toList = true ∧
    ReadSecrets
        (fileWith
          "kind: Secret\ndata: 5\n---\nfoo: bar\n---\nkind: Secret\nmetadata:\n  name: svc-secret\n".toList)
        sampleSecretYaml "svc.yaml"
      = .ok ({ Kind := "Secret", Name := "", other := () },
             ["kind: Secret\ndata: 5\n".toList,
              "kind: Secret\nmetadata:\n  name: svc-secret\n".toList]) := by
  refine ⟨by decide, by decide, by decide, ?_⟩
  rfl

/-- C8, evaluated.  The file is the single document `kind: Secret` followed
by `data: 5`.  `yaml.Unmarshal` reports an error on it, so no document of the
file deserializes with the kind `Secret`; yet `ReadSecrets` does not fail: it
returns the object that the errored decode left in the target, and empty
leftovers. -/
theorem ReadSecrets_succeeds_without_match :
    splitYamlDocument "kind: Secret\ndata: 5\n".toList = ["kind: Secret\ndata: 5\n".toList] ∧
    (sampleSecretYaml.Unmarshal "kind: Secret\ndata: 5\n".toList zeroSecret).2.isSome = true ∧
    (∀ document ∈ splitYamlDocument "kind: Secret\ndata: 5\n".toList,
      deserializesAs sampleSecretYaml (·.Kind) "Secret" zeroSecret document = false) ∧
    ReadSecrets (fileWith "kind: Secret\ndata: 5\n".toList) sampleSecretYaml "svc.yaml"
      = .ok ({ Kind := "Secret", Name := "", other := () }, []) := by
  refine ⟨by decide, by decide, by decide, ?_⟩
  rfl


/-! ## Theorems: the serializer -/

theorem replaceAllAux_skip (re : Regexp) (repl : Bytes) :
    ∀ (s : Bytes) (k : Nat),
      replaceAllAux re repl s k = replaceAllAux re repl (s.drop k) 0 := by
  intro s
  induction s with
  | nil => intro k; simp [replaceAllAux]
  | cons c rest ih =>
    intro k
    cases k with
    | zero => rfl
    | succ k => rw [replaceAllAux, ih k, List.drop_succ_cons]

theorem ReplaceAll_nil (re : Regexp) : re.ReplaceAll [] [] = [] := rfl

theorem ReplaceAll_cons_none (re : Regexp) (c : Char) (rest : Bytes)
    (h : re.matchAt (c :: rest) = none) :
    re.ReplaceAll (c :: rest) [] = c :: re.ReplaceAll rest [] := by
  simp [Regexp.ReplaceAll, replaceAllAux, h]

theorem ReplaceAll_cons_some {re : Regexp} {lits : List Bytes} (hre : StripsFields re lits)
    (c : Char) (rest after : Bytes) (h : re.matchAt (c :: rest) = some after) :
    re.ReplaceAll (c :: rest) [] = re.ReplaceAll after [] := by
  obtain ⟨ws, lit, hws, _, heq⟩ := hre.sound _ _ h
  have hdrop : rest.drop ((c :: rest).length - after.length - 1) = after := by
    cases hm : ws ++ lit with
    | nil => simp [hws] at hm
    | cons x m =>
      rw [hm] at heq
      simp only [List.cons_append, List.cons.injEq] at heq
      obtain ⟨_, hrest⟩ := heq
      subst hrest
      have : (c :: (m ++ after)).length - after.length - 1 = m.length := by
        simp only [List.length_cons, List.length_append]
        omega
      rw [this, List.drop_left]
  simp only [Regexp.ReplaceAll, replaceAllAux, h, List.nil_append]
  rw [replaceAllAux_skip, hdrop]

theorem onlyAsFieldLine_cons (lit : Bytes) (b : Bool) (c : Char) (rest : Bytes) :
    onlyAsFieldLine lit b (c :: rest) = true ↔
      (lit <+: c :: rest → b = true ∧ endsLine ((c :: rest).drop lit.length) = true) ∧
      onlyAsFieldLine lit (isSpace c) rest = true := by
  simp only [onlyAsFieldLine, Bool.and_eq_true, Bool.or_eq_true, Bool.not_eq_true',
    ← Bool.not_eq_true, List.isPrefixOf_iff_prefix, imp_iff_not_or]

theorem onlyAsFieldLine_of_not_prefix (lit : Bytes) (b1 b2 : Bool) (t : Bytes)
    (h : onlyAsFieldLine lit b1 t = true) (hp : ¬ lit <+: t) :
    onlyAsFieldLine lit b2 t = true := by
  cases t with
  | nil => rfl
  | cons c rest =>
    rw [onlyAsFieldLine_cons] at h ⊢
    exact ⟨fun hpre => absurd hpre hp, h.2⟩

theorem onlyAsFieldLine_drop (lit : Bytes) :
    ∀ (x : Bytes) (b : Bool) (s : Bytes), onlyAsFieldLine lit b (x ++ s) = true →
      ∃ b2, onlyAsFieldLine lit b2 s = true := by
  intro x
  induction x with
  | nil => intro b s h; exact ⟨b, h⟩
  | cons c x ih =>
    intro b s h
    rw [List.cons_append, onlyAsFieldLine_cons] at h
    exact ih _ s h.2

theorem endsLine_after_occurrence (lit : Bytes) (hne : lit ≠ []) :
    ∀ (x : Bytes) (b : Bool) (after : Bytes),
      onlyAsFieldLine lit b (x ++ lit ++ after) = true → endsLine after = true := by
  intro x
  induction x with
  | nil =>
    intro b after h
    cases hl : lit with
    | nil => exact absurd hl hne
    | cons c l =>
      rw [List.nil_append, hl, List.cons_append, onlyAsFieldLine_cons] at h
      have hpre : (c :: l) <+: c :: (l ++ after) := ⟨after, rfl⟩
      have := (h.1 hpre).2
      rw [← List.cons_append, List.drop_left] at this
      exact this
  | cons c x ih =>
    intro b after h
    rw [List.cons_append, List.cons_append, onlyAsFieldLine_cons] at h
    exact ih _ after h.2

theorem not_prefix_of_endsLine (lit t : Bytes) (hne : lit ≠ []) (hline : '\n' ∉ lit)
    (h : endsLine t = true) : ¬ lit <+: t := by
  intro hp
  cases t with
  | nil => exact hne (List.prefix_nil.mp hp)
  | cons c rest =>
    have hc : c = '\n' := by simpa [endsLine] using h
    cases lit with
    | nil => exact hne rfl
    | cons x l =>
      have hx : x = c := (List.cons_prefix_cons.mp hp).1
      apply hline
      rw [hx, hc]
      exact List.mem_cons_self _ _

section Generic

variable {re : Regexp} {lits : List Bytes}

theorem endsLine_ReplaceAll (hre : StripsFields re lits) :
    ∀ (n : Nat) (t : Bytes), t.length ≤ n →
      (∀ l ∈ lits, ∃ b, onlyAsFieldLine l b t = true) →
      endsLine t = true → endsLine (re.ReplaceAll t []) = true := by
  intro n
  induction n with
  | zero =>
    intro t hlen _ _
    have : t = [] := List.length_eq_zero.mp (Nat.le_zero.mp hlen)
    subst this
    rfl
  | succ n ih =>
    intro t hlen hgood hends
    cases t with
    | nil => rfl
    | cons c rest =>
      cases hm : re.matchAt (c :: rest) with
      | none =>
        rw [ReplaceAll_cons_none re c rest hm]
        exact hends
      | some after =>
        rw [ReplaceAll_cons_some hre c rest after hm]
        obtain ⟨ws, lit, hws, hlit, heq⟩ := hre.sound _ _ hm
        have hlen2 : after.length ≤ n := by
          have h1 : (c :: rest).length = (ws ++ lit ++ after).length := by rw [heq]
          have h2 : 0 < ws.length := List.length_pos.mpr hws
          simp only [List.length_cons, List.length_append] at h1 hlen
          omega
        have hgood2 : ∀ l ∈ lits, ∃ b, onlyAsFieldLine l b after = true := by
          intro l hl
          obtain ⟨b, hb⟩ := hgood l hl
          rw [heq] at hb
          exact onlyAsFieldLine_drop l (ws ++ lit) b after hb
        have hends2 : endsLine after = true := by
          obtain ⟨b, hb⟩ := hgood lit hlit
          rw [heq] at hb
          exact endsLine_after_occurrence lit (hre.lit_ne lit hlit) ws b after hb
        exact ih after hlen2 hgood2 hends2

theorem after_match (hre : StripsFields re lits) (c : Char) (rest after : Bytes)
    (hm : re.matchAt (c :: rest) = some after)
    (hgood : ∀ l ∈ lits, ∃ b, onlyAsFieldLine l b (c :: rest) = true) :
    after.length < (c :: rest).length ∧
      (∀ l ∈ lits, ∃ b, onlyAsFieldLine l b after = true) ∧
      endsLine after = true ∧ after <:+ c :: rest := by
  obtain ⟨ws, lit, hws, hlit, heq⟩ := hre.sound _ _ hm
  refine ⟨?_, ?_, ?_, ?_⟩
  · have h1 : (c :: rest).length = (ws ++ lit ++ after).length := by rw [heq]
    have h2 : 0 < ws.length := List.length_pos.mpr hws
    simp only [List.length_append] at h1
    omega
  · intro l hl
    obtain ⟨b, hb⟩ := hgood l hl
    rw [heq] at hb
    exact onlyAsFieldLine_drop l (ws ++ lit) b after hb
  · obtain ⟨b, hb⟩ := hgood lit hlit
    rw [heq] at hb
    exact endsLine_after_occurrence lit (hre.lit_ne lit hlit) ws b after hb
  · exact ⟨ws ++ lit, heq.symm⟩

theorem fieldLines_tail (c : Char) (rest : Bytes)
    (hgood : ∀ l ∈ lits, ∃ b, onlyAsFieldLine l b (c :: rest) = true) :
    ∀ l ∈ lits, ∃ b, onlyAsFieldLine l b rest = true := by
  intro l hl
  obtain ⟨b, hb⟩ := hgood l hl
  exact ⟨isSpace c, ((onlyAsFieldLine_cons l b c rest).mp hb).2⟩

/-- A text without line break at the start of the output stood at the start
of the input, and the output goes on as the output of what followed it. -/
theorem prefix_ReplaceAll (hre : StripsFields re lits) :
    ∀ (L : Bytes), '\n' ∉ L → ∀ (t q : Bytes),
      (∀ l ∈ lits, ∃ b, onlyAsFieldLine l b t = true) →
      re.ReplaceAll t [] = L ++ q →
      ∃ post, t = L ++ post ∧ q = re.ReplaceAll post [] := by
  intro L
  induction L with
  | nil => intro _ t q _ h; exact ⟨t, rfl, by simpa using h.symm⟩
  | cons x L ih =>
    intro hline t q hgood h
    cases t with
    | nil => simp [ReplaceAll_nil] at h
    | cons c rest =>
      cases hm : re.matchAt (c :: rest) with
      | none =>
        rw [ReplaceAll_cons_none re c rest hm, List.cons_append, List.cons.injEq] at h
        obtain ⟨hc, hrest⟩ := h
        have hline2 : '\n' ∉ L := fun hmem => hline (List.mem_cons_of_mem _ hmem)
        obtain ⟨post, hpost, hq⟩ := ih hline2 rest q (fieldLines_tail c rest hgood) hrest
        exact ⟨post, by rw [hc, hpost, List.cons_append], hq⟩
      | some after =>
        rw [ReplaceAll_cons_some hre c rest after hm] at h
        obtain ⟨_, hgood2, hends2, _⟩ := after_match hre c rest after hm hgood
        have hends3 := endsLine_ReplaceAll hre after.length after (Nat.le_refl _) hgood2 hends2
        rw [h, List.cons_append] at hends3
        have hx : x = '\n' := by simpa [endsLine] using hends3
        exact absurd (hx ▸ List.mem_cons_self _ _) hline

/-- A text without line break that occurs in the output occurs in the input. -/
theorem infix_of_infix_ReplaceAll (hre : StripsFields re lits) (L : Bytes) (hline : '\n' ∉ L) :
    ∀ (n : Nat) (t : Bytes), t.length ≤ n →
      (∀ l ∈ lits, ∃ b, onlyAsFieldLine l b t = true) →
      L <:+: re.ReplaceAll t [] → L <:+: t := by
  intro n
  induction n with
  | zero =>
    intro t hlen _ h
    have : t = [] := List.length_eq_zero.mp (Nat.le_zero.mp hlen)
    subst this
    exact h
  | succ n ih =>
    intro t hlen hgood h
    cases t with
    | nil => exact h
    | cons c rest =>
      cases hm : re.matchAt (c :: rest) with
      | none =>
        rw [ReplaceAll_cons_none re c rest hm] at h
        rcases List.infix_cons_iff.mp h with hpre | hin
        · obtain ⟨q, hq⟩ := hpre
          obtain ⟨post, hpost, _⟩ := prefix_ReplaceAll hre L hline (c :: rest) q hgood
            (by rw [ReplaceAll_cons_none re c rest hm]; exact hq.symm)
          exact ⟨[], post, by simpa using hpost.symm⟩
        · have hlen2 : rest.length ≤ n := by simpa using hlen
          exact List.infix_cons_iff.mpr
            (Or.inr (ih rest hlen2 (fieldLines_tail c rest hgood) hin))
      | some after =>
        rw [ReplaceAll_cons_some hre c rest after hm] at h
        obtain ⟨hlt, hgood2, _, hsuf⟩ := after_match hre c rest after hm hgood
        have hlen2 : after.length ≤ n := by omega
        exact (ih after hlen2 hgood2 h).trans hsuf.isInfix

/-- No field text of the pattern is left in the output, when each of them
occurs in the input as a field line only. -/
theorem no_field_in_ReplaceAll (hre : StripsFields re lits) :
    ∀ (n : Nat) (t : Bytes) (b : Bool), t.length ≤ n →
      (∀ l ∈ lits, onlyAsFieldLine l b t = true) →
      (b = true → ∀ l ∈ lits, ¬ l <+: t) →
      ∀ L ∈ lits, ¬ L <:+: re.ReplaceAll t [] := by
  intro n
  induction n with
  | zero =>
    intro t b hlen _ _ L hL h
    have : t = [] := List.length_eq_zero.mp (Nat.le_zero.mp hlen)
    subst this
    exact hre.lit_ne L hL (List.infix_nil.mp h)
  | succ n ih =>
    intro t b hlen hgood hinv L hL h
    cases t with
    | nil => exact hre.lit_ne L hL (List.infix_nil.mp h)
    | cons c rest =>
      have hgoodE : ∀ l ∈ lits, ∃ b, onlyAsFieldLine l b (c :: rest) = true :=
        fun l hl => ⟨b, hgood l hl⟩
      cases hm : re.matchAt (c :: rest) with
      | none =>
        rw [ReplaceAll_cons_none re c rest hm] at h
        rcases List.infix_cons_iff.mp h with hpre | hin
        · obtain ⟨q, hq⟩ := hpre
          obtain ⟨post, hpost, _⟩ := prefix_ReplaceAll hre L (hre.lit_line L hL) (c :: rest) q
            hgoodE (by rw [ReplaceAll_cons_none re c rest hm]; exact hq.symm)
          have hpt : L <+: c :: rest := ⟨post, hpost.symm⟩
          have hb : b = true := (((onlyAsFieldLine_cons L b c rest).mp (hgood L hL)).1 hpt).1
          exact hinv hb L hL hpt
        · have hlen2 : rest.length ≤ n := by simpa using hlen
          refine ih rest (isSpace c) hlen2
            (fun l hl => ((onlyAsFieldLine_cons l b c rest).mp (hgood l hl)).2) ?_ L hL hin
          intro hc l hl hpre
          exact hre.complete c rest l hc hl hpre hm
      | some after =>
        rw [ReplaceAll_cons_some hre c rest after hm] at h
        obtain ⟨hlt, hgood2, hends2, _⟩ := after_match hre c rest after hm hgoodE
        have hlen2 : after.length ≤ n := by omega
        have hnp : ∀ l ∈ lits, ¬ l <+: after := fun l hl =>
          not_prefix_of_endsLine l after (hre.lit_ne l hl) (hre.lit_line l hl) hends2
        refine ih after true hlen2 ?_ (fun _ => hnp) L hL h
        intro l hl
        obtain ⟨b2, hb2⟩ := hgood2 l hl
        exact onlyAsFieldLine_of_not_prefix l b2 true after hb2 (hnp l hl)

/-- A text that occurs in the input as a field line only occurs in the output
as a field line only. -/
theorem onlyAsFieldLine_ReplaceAll (hre : StripsFields re lits) (L : Bytes) (hne : L ≠ [])
    (hline : '\n' ∉ L) :
    ∀ (n : Nat) (t : Bytes) (b : Bool), t.length ≤ n →
      (∀ l ∈ lits, ∃ b, onlyAsFieldLine l b t = true) →
      onlyAsFieldLine L b t = true →
      onlyAsFieldLine L b (re.ReplaceAll t []) = true := by
  intro n
  induction n with
  | zero =>
    intro t b hlen _ _
    have : t = [] := List.length_eq_zero.mp (Nat.le_zero.mp hlen)
    subst this
    rfl
  | succ n ih =>
    intro t b hlen hgood hL
    cases t with
    | nil => rfl
    | cons c rest =>
      cases hm : re.matchAt (c :: rest) with
      | none =>
        rw [ReplaceAll_cons_none re c rest hm, onlyAsFieldLine_cons]
        have hLc := (onlyAsFieldLine_cons L b c rest).mp hL
        have hlen2 : rest.length ≤ n := by simpa using hlen
        refine ⟨?_, ih rest (isSpace c) hlen2 (fieldLines_tail c rest hgood) hLc.2⟩
        intro hpre
        obtain ⟨q, hq⟩ := hpre
        obtain ⟨post, hpost, hqpost⟩ := prefix_ReplaceAll hre L hline (c :: rest) q hgood
          (by rw [ReplaceAll_cons_none re c rest hm]; exact hq.symm)
        have hpt : L <+: c :: rest := ⟨post, hpost.symm⟩
        obtain ⟨hb, hends⟩ := hLc.1 hpt
        refine ⟨hb, ?_⟩
        rw [hpost, List.drop_left] at hends
        have hgood3 : ∀ l ∈ lits, ∃ b, onlyAsFieldLine l b post = true := by
          intro l hl
          obtain ⟨b2, hb2⟩ := hgood l hl
          rw [hpost] at hb2
          exact onlyAsFieldLine_drop l L b2 post hb2
        have := endsLine_ReplaceAll hre post.length post (Nat.le_refl _) hgood3 hends
        rw [← hq, List.drop_left, hqpost]
        exact this
      | some after =>
        rw [ReplaceAll_cons_some hre c rest after hm]
        obtain ⟨hlt, hgood2, hends2, _⟩ := after_match hre c rest after hm hgood
        have hlen2 : after.length ≤ n := by omega
        obtain ⟨ws, lit, _, _, heq⟩ := hre.sound _ _ hm
        obtain ⟨b2, hb2⟩ : ∃ b2, onlyAsFieldLine L b2 after = true := by
          rw [heq] at hL
          exact onlyAsFieldLine_drop L (ws ++ lit) b after hL
        have h1 := ih after b2 hlen2 hgood2 hb2
        have hends3 := endsLine_ReplaceAll hre after.length after (Nat.le_refl _) hgood2 hends2
        exact onlyAsFieldLine_of_not_prefix L b2 b _ h1
          (not_prefix_of_endsLine L _ hne hline hends3)

end Generic

theorem matchSpaces_sound (k : Bytes → Option Bytes) :
    ∀ (s after : Bytes), matchSpaces k s = some after →
      ∃ ws s2, ws ≠ [] ∧ s = ws ++ s2 ∧ k s2 = some after := by
  intro s
  induction s with
  | nil => intro after h; simp [matchSpaces] at h
  | cons c rest ih =>
    intro after h
    by_cases hc : isSpace c = true
    · rw [matchSpaces, if_pos hc] at h
      cases h1 : matchSpaces k rest with
      | none =>
        rw [h1] at h
        exact ⟨[c], rest, by simp, rfl, h⟩
      | some a =>
        rw [h1] at h
        have ha : a = after := by simpa [Option.orElse] using h
        subst ha
        obtain ⟨ws, s2, _, heq, hk⟩ := ih a h1
        exact ⟨c :: ws, s2, by simp, by rw [heq, List.cons_append], hk⟩
    · rw [matchSpaces, if_neg hc] at h
      cases h

theorem matchSpaces_complete (k : Bytes → Option Bytes) (c : Char) (cs : Bytes)
    (hc : isSpace c = true) (hk : k cs ≠ none) : matchSpaces k (c :: cs) ≠ none := by
  rw [matchSpaces, if_pos hc]
  cases h1 : matchSpaces k cs with
  | none => simpa [Option.orElse] using hk
  | some a => simp [Option.orElse]

theorem lit_matchThen (text input : Bytes) (k : Bytes → Option Bytes) :
    (Regexp.lit text).matchThen input k
      = if text.isPrefixOf input then k (input.drop text.length) else none := rfl

theorem lit_matchAt_eq_some (text input after : Bytes) :
    (Regexp.lit text).matchThen input some = some after ↔ input = text ++ after := by
  rw [lit_matchThen]
  constructor
  · intro h
    by_cases hp : text.isPrefixOf input = true
    · rw [if_pos hp] at h
      have hpre := List.isPrefixOf_iff_prefix.mp hp
      have := List.prefix_iff_eq_append.mp hpre
      rw [Option.some.injEq] at h
      rw [← h]
      exact this.symm
    · rw [if_neg hp] at h
      cases h
  · intro h
    subst h
    have hp : text.isPrefixOf (text ++ after) = true :=
      List.isPrefixOf_iff_prefix.mpr (List.prefix_append _ _)
    rw [if_pos hp, List.drop_left]

theorem lit_lit_eq_some (x d input after : Bytes) :
    (Regexp.lit x).matchThen input (fun rest => (Regexp.lit d).matchThen rest some) = some after
      ↔ input = x ++ d ++ after := by
  rw [lit_matchThen]
  constructor
  · intro h
    by_cases hp : x.isPrefixOf input = true
    · rw [if_pos hp] at h
      have hpre := List.prefix_iff_eq_append.mp (List.isPrefixOf_iff_prefix.mp hp)
      have h2 := (lit_matchAt_eq_some d _ after).mp h
      rw [← hpre, h2, List.append_assoc]
    · rw [if_neg hp] at h
      cases h
  · intro h
    subst h
    have hp : x.isPrefixOf (x ++ d ++ after) = true := by
      rw [List.append_assoc]
      exact List.isPrefixOf_iff_prefix.mpr (List.prefix_append _ _)
    rw [if_pos hp, List.append_assoc, List.drop_left]
    exact (lit_matchAt_eq_some d _ after).mpr rfl

theorem timeStampRegex_strips : StripsFields timeStampRegex timeStampLiterals where
  sound := by
    intro s after h
    obtain ⟨ws, s2, hws, heq, hk⟩ := matchSpaces_sound _ s after h
    have h2 := (lit_matchAt_eq_some _ s2 after).mp hk
    exact ⟨ws, "creationTimestamp: null".toList, hws, by simp [timeStampLiterals],
      by rw [heq, h2, List.append_assoc]⟩
  complete := by
    intro c cs lit hc hl hpre
    have hlit : lit = "creationTimestamp: null".toList := by
      simpa [timeStampLiterals] using hl
    subst hlit
    obtain ⟨post, hpost⟩ := hpre
    apply matchSpaces_complete _ c cs hc
    rw [(lit_matchAt_eq_some _ cs post).mpr hpost.symm]
    simp
  lit_ne := by decide
  lit_line := by decide

theorem emptyStructRegex_strips : StripsFields emptyStructRegex emptyStructLiterals where
  sound := by
    intro s after h
    obtain ⟨ws, s2, hws, heq, hk⟩ := matchSpaces_sound _ s after h
    have hk2 : ((Regexp.lit "status".toList).matchThen s2
          (fun rest => (Regexp.lit ": \x7b\x7d".toList).matchThen rest some)).orElse
        (fun _ => ((Regexp.lit "selector".toList).matchThen s2
          (fun rest => (Regexp.lit ": \x7b\x7d".toList).matchThen rest some)).orElse
        (fun _ => (Regexp.lit "strategy".toList).matchThen s2
          (fun rest => (Regexp.lit ": \x7b\x7d".toList).matchThen rest some))) = some after := hk
    have hcases : ∃ lit ∈ emptyStructLiterals, s2 = lit ++ after := by
      cases h1 : (Regexp.lit "status".toList).matchThen s2
          (fun rest => (Regexp.lit ": \x7b\x7d".toList).matchThen rest some) with
      | some a =>
        rw [h1] at hk2
        have ha : a = after := by simpa [Option.orElse] using hk2
        subst ha
        exact ⟨_, by simp [emptyStructLiterals], (lit_lit_eq_some _ _ s2 a).mp h1⟩
      | none =>
        rw [h1] at hk2
        simp only [Option.orElse] at hk2
        cases h2 : (Regexp.lit "selector".toList).matchThen s2
            (fun rest => (Regexp.lit ": \x7b\x7d".toList).matchThen rest some) with
        | some a =>
          rw [h2] at hk2
          have ha : a = after := by simpa [Option.orElse] using hk2
          subst ha
          exact ⟨_, by simp [emptyStructLiterals], (lit_lit_eq_some _ _ s2 a).mp h2⟩
        | none =>
          rw [h2] at hk2
          simp only [Option.orElse] at hk2
          exact ⟨_, by simp [emptyStructLiterals], (lit_lit_eq_some _ _ s2 after).mp hk2⟩
    obtain ⟨lit, hlit, hs2⟩ := hcases
    exact ⟨ws, lit, hws, hlit, by rw [heq, hs2, List.append_assoc]⟩
  complete := by
    intro c cs lit hc hl hpre
    obtain ⟨post, hpost⟩ := hpre
    apply matchSpaces_complete _ c cs hc
    show ((Regexp.lit "status".toList).matchThen cs
          (fun rest => (Regexp.lit ": \x7b\x7d".toList).matchThen rest some)).orElse
        (fun _ => ((Regexp.lit "selector".toList).matchThen cs
          (fun rest => (Regexp.lit ": \x7b\x7d".toList).matchThen rest some)).orElse
        (fun _ => (Regexp.lit "strategy".toList).matchThen cs
          (fun rest => (Regexp.lit ": \x7b\x7d".toList).matchThen rest some))) ≠ none
    have hor : ∀ (a : Option Bytes) (f : Unit → Option Bytes),
        (a ≠ none ∨ f () ≠ none) → a.orElse f ≠ none := by
      intro a f h
      cases a with
      | none => simpa [Option.orElse] using h
      | some x => simp [Option.orElse]
    simp only [emptyStructLiterals, List.mem_cons, List.mem_singleton, List.not_mem_nil,
      or_false] at hl
    rcases hl with rfl | rfl | rfl
    · apply hor
      left
      rw [(lit_lit_eq_some "status".toList ": \x7b\x7d".toList cs post).mpr hpost.symm]
      simp
    · apply hor
      right
      apply hor
      left
      rw [(lit_lit_eq_some "selector".toList ": \x7b\x7d".toList cs post).mpr hpost.symm]
      simp
    · apply hor
      right
      apply hor
      right
      rw [(lit_lit_eq_some "strategy".toList ": \x7b\x7d".toList cs post).mpr hpost.symm]
      simp
  lit_ne := by decide
  lit_line := by decide

theorem marshalK8sEntity_ok {Obj : Type} (encoder : Encoder Obj) (obj : Obj)
    (jsonData text : Bytes) (hjson : encoder.Marshal obj = .ok jsonData)
    (hyaml : encoder.JSONToYAML jsonData = .ok text) :
    marshalK8sEntity encoder obj
      = .ok (emptyStructRegex.ReplaceAll (timeStampRegex.ReplaceAll text []) []) := by
  simp only [marshalK8sEntity, hjson, hyaml]

/-- C9, as amended: when the encoder stage succeeds with a YAML text in which
every occurrence of `creationTimestamp: null`, `status: {}`, `selector: {}`
and `strategy: {}` is a field line (white space before it, end of line after
it), `marshalK8sEntity` succeeds and none of the four texts occurs anywhere
in its output, so no line of the output contains one. -/
theorem marshalK8sEntity_strips_field_lines {Obj : Type} (encoder : Encoder Obj) (obj : Obj)
    (jsonData text : Bytes) (hjson : encoder.Marshal obj = .ok jsonData)
    (hyaml : encoder.JSONToYAML jsonData = .ok text)
    (hfield : ∀ lit ∈ fieldLiterals, onlyAsFieldLine lit false text = true) :
    ∃ output, marshalK8sEntity encoder obj = .ok output ∧
      ∀ lit ∈ fieldLiterals, ¬ lit <:+: output := by
  refine ⟨_, marshalK8sEntity_ok encoder obj jsonData text hjson hyaml, ?_⟩
  have h1 : ∀ l ∈ timeStampLiterals, onlyAsFieldLine l false text = true :=
    fun l hl => hfield l (List.mem_append_left _ hl)
  have h2 : ∀ l ∈ emptyStructLiterals, onlyAsFieldLine l false text = true :=
    fun l hl => hfield l (List.mem_append_right _ hl)
  have h1E : ∀ l ∈ timeStampLiterals, ∃ b, onlyAsFieldLine l b text = true :=
    fun l hl => ⟨false, h1 l hl⟩
  -- after the first replacement
  have hno1 : ∀ l ∈ timeStampLiterals, ¬ l <:+: timeStampRegex.ReplaceAll text [] :=
    no_field_in_ReplaceAll timeStampRegex_strips text.length text false (Nat.le_refl _) h1
      (fun hb => by cases hb)
  have hgood2 : ∀ l ∈ emptyStructLiterals,
      onlyAsFieldLine l false (timeStampRegex.ReplaceAll text []) = true :=
    fun l hl => onlyAsFieldLine_ReplaceAll timeStampRegex_strips l
      (emptyStructRegex_strips.lit_ne l hl) (emptyStructRegex_strips.lit_line l hl)
      text.length text false (Nat.le_refl _) h1E (h2 l hl)
  -- after the second replacement
  have hno2 : ∀ l ∈ emptyStructLiterals,
      ¬ l <:+: emptyStructRegex.ReplaceAll (timeStampRegex.ReplaceAll text []) [] :=
    no_field_in_ReplaceAll emptyStructRegex_strips _ _ false (Nat.le_refl _) hgood2
      (fun hb => by cases hb)
  intro lit hlit
  rcases List.mem_append.mp hlit with hl | hl
  · intro hin
    exact hno1 lit hl
      (infix_of_infix_ReplaceAll emptyStructRegex_strips lit
        (timeStampRegex_strips.lit_line lit hl) _ _ (Nat.le_refl _)
        (fun l hl2 => ⟨false, hgood2 l hl2⟩) hin)
  · exact hno2 lit hl

/-- Witness of the amended C9: the text the encoder stage gives for a
Deployment that was never applied, with the four kinds of line to strip. -/
theorem marshalK8sEntity_strips_field_lines_witness :
    ∃ output,
      marshalK8sEntity
          (encoderOf
            "kind: Deployment\nmetadata:\n  creationTimestamp: null\n  name: svc\nspec:\n  selector: \x7b\x7d\n  strategy: \x7b\x7d\n  template:\n    metadata:\n      creationTimestamp: null\nstatus: \x7b\x7d\n".toList)
          ()
        = .ok output ∧
      ∀ lit ∈ fieldLiterals, ¬ lit <:+: output :=
  marshalK8sEntity_strips_field_lines _ () [] _ rfl rfl (by decide)

/-- The serializer on the text of the witness, evaluated. -/
theorem marshalK8sEntity_deployment_text :
    marshalK8sEntity
        (encoderOf
          "kind: Deployment\nmetadata:\n  creationTimestamp: null\n  name: svc\nspec:\n  selector: \x7b\x7d\n  strategy: \x7b\x7d\n  template:\n    metadata:\n      creationTimestamp: null\nstatus: \x7b\x7d\n".toList)
        ()
      = .ok "kind: Deployment\nmetadata:\n  name: svc\nspec:\n  template:\n    metadata:\n".toList := by
  rfl

/-- C9 fails as stated: for an object whose encoder stage gives the text
`creationTimestamp: null` on its first line (a map with that single key), no
white space stands before the field, `timeStampRegex` does not match, and the
output of `marshalK8sEntity` contains the literal `creationTimestamp: null`. -/
theorem marshalK8sEntity_keeps_first_line_timestamp :
    marshalK8sEntity (encoderOf "creationTimestamp: null\n".toList) ()
        = .ok "creationTimestamp: null\n".toList ∧
      "creationTimestamp: null".toList <:+: "creationTimestamp: null\n".toList :=
  ⟨rfl, [], "\n".toList, rfl⟩

/-- The same happens with an object of a supported kind: in the text of a
ConfigMap whose data holds the value `creationTimestamp: null`, the value is
written between quotes, a quote and not white space stands before it, and it
is kept, while the field line of the metadata is stripped. -/
theorem marshalK8sEntity_keeps_quoted_timestamp :
    marshalK8sEntity
        (encoderOf
          "data:\n  k: \x27creationTimestamp: null\x27\nkind: ConfigMap\nmetadata:\n  creationTimestamp: null\n  name: svc-config\n".toList)
        ()
      = .ok "data:\n  k: \x27creationTimestamp: null\x27\nkind: ConfigMap\nmetadata:\n  name: svc-config\n".toList := by
  rfl

/-- The replacement is done in one pass: a field text that does not end its
line can leave a new `creationTimestamp: null`, with white space before it, in
the output. -/
theorem marshalK8sEntity_joins_fragments :
    marshalK8sEntity
        (encoderOf "a: |-\n  creationTimestamp: nu\n  creationTimestamp: nullll\n".toList) ()
      = .ok "a: |-\n  creationTimestamp: null\n".toList := by
  rfl

/-! ## Theorems: the writer -/

/-- C11 (writer layout): when the file can be created, the serialization of
the object succeeds with `output` and the write returns no error, the content
of the file is the leftover documents followed by `output`, joined with the
separator: each leftover document as it was and in its order, the target
document last.  No other file changes. -/
theorem writeK8sYaml_layout {Obj : Type} (os : Os) (encoder : Encoder Obj) (fs : FileSystem)
    (obj : Obj) (leftOver : List Bytes) (filePath : String) (output : Bytes)
    (hcreate : os.createError fs filePath = none)
    (hmarshal : marshalK8sEntity encoder obj = .ok output)
    (hwrite : os.writeError filePath (bytesJoin (leftOver ++ [output]) yamlDocumentSeparator)
      = none) :
    (writeK8sYaml os encoder fs obj leftOver filePath).2 = none ∧
    (writeK8sYaml os encoder fs obj leftOver filePath).1 filePath
      = some (bytesJoin (leftOver ++ [output]) yamlDocumentSeparator) ∧
    ∀ p, p ≠ filePath → (writeK8sYaml os encoder fs obj leftOver filePath).1 p = fs p := by
  simp only [writeK8sYaml, hcreate, hmarshal, hwrite]
  refine ⟨trivial, by simp [FileSystem.put], fun p hp => ?_⟩
  simp [FileSystem.put, hp]

/-- Witness of C11: two leftover documents and the text of a Secret. -/
theorem writeK8sYaml_layout_witness :
    (writeK8sYaml reliableOs (encoderOf "kind: Secret\n".toList) (oneFile "old".toList) ()
        ["foo: bar\n".toList, "kind: ConfigMap\n".toList] "svc.yaml").2 = none ∧
    (writeK8sYaml reliableOs (encoderOf "kind: Secret\n".toList) (oneFile "old".toList) ()
        ["foo: bar\n".toList, "kind: ConfigMap\n".toList] "svc.yaml").1 "svc.yaml"
      = some (bytesJoin (["foo: bar\n".toList, "kind: ConfigMap\n".toList]
          ++ ["kind: Secret\n".toList]) yamlDocumentSeparator) ∧
    ∀ p, p ≠ "svc.yaml" →
      (writeK8sYaml reliableOs (encoderOf "kind: Secret\n".toList) (oneFile "old".toList) ()
        ["foo: bar\n".toList, "kind: ConfigMap\n".toList] "svc.yaml").1 p
        = oneFile "old".toList p :=
  writeK8sYaml_layout reliableOs (encoderOf "kind: Secret\n".toList) (oneFile "old".toList) ()
    ["foo: bar\n".toList, "kind: ConfigMap\n".toList] "svc.yaml" "kind: Secret\n".toList
    rfl rfl rfl

/-- The content written in the witness of C11, evaluated. -/
theorem writeK8sYaml_layout_content :
    (writeK8sYaml reliableOs (encoderOf "kind: Secret\n".toList) (oneFile "old".toList) ()
        ["foo: bar\n".toList, "kind: ConfigMap\n".toList] "svc.yaml").1 "svc.yaml"
      = some "foo: bar\n---\nkind: ConfigMap\n---\nkind: Secret\n".toList := by
  rfl

/-- C12 fails as stated: the file `svc.yaml` holds `old`, the serialization of
the object fails; `writeK8sYaml` returns the serialization error and the file
is empty afterwards, because `os.Create` (line 160) has truncated it before
`marshalK8sEntity` is called (line 167). -/
theorem writeK8sYaml_truncates_before_failure :
    (oneFile "old".toList) "svc.yaml" = some "old".toList ∧
    marshalK8sEntity failingEncoder () = .error "json: unsupported type" ∧
    (writeK8sYaml reliableOs failingEncoder (oneFile "old".toList) () [] "svc.yaml").2
      = some "json: unsupported type" ∧
    (writeK8sYaml reliableOs failingEncoder (oneFile "old".toList) () [] "svc.yaml").1 "svc.yaml"
      = some [] := by
  refine ⟨rfl, rfl, rfl, rfl⟩

/-- C12, as amended: when the serialization of the object fails with `err`,
`writeK8sYaml` returns an error and writes no byte.  If the file could be
created the error is `err`, the file is empty afterwards and no other file
has changed; if `os.Create` failed, its error is returned and the file
system is as it was. -/
theorem writeK8sYaml_serialization_failure {Obj : Type} (os : Os) (encoder : Encoder Obj)
    (fs : FileSystem) (obj : Obj) (leftOver : List Bytes) (filePath : String) (err : String)
    (hmarshal : marshalK8sEntity encoder obj = .error err) :
    (os.createError fs filePath = none →
      (writeK8sYaml os encoder fs obj leftOver filePath).2 = some err ∧
      (writeK8sYaml os encoder fs obj leftOver filePath).1 filePath = some [] ∧
      ∀ p, p ≠ filePath → (writeK8sYaml os encoder fs obj leftOver filePath).1 p = fs p) ∧
    (∀ createErr, os.createError fs filePath = some createErr →
      writeK8sYaml os encoder fs obj leftOver filePath = (fs, some createErr)) := by
  constructor
  · intro hcreate
    simp only [writeK8sYaml, hcreate, hmarshal]
    refine ⟨trivial, by simp [FileSystem.put], fun p hp => ?_⟩
    simp [FileSystem.put, hp]
  · intro createErr hcreate
    simp only [writeK8sYaml, hcreate]

/-- Witness of the amended C12. -/
theorem writeK8sYaml_serialization_failure_witness :
    (writeK8sYaml reliableOs failingEncoder (oneFile "old".toList) () [] "svc.yaml").2
      = some "json: unsupported type" ∧
    (writeK8sYaml reliableOs failingEncoder (oneFile "old".toList) () [] "svc.yaml").1 "svc.yaml"
      = some [] ∧
    ∀ p, p ≠ "svc.yaml" →
      (writeK8sYaml reliableOs failingEncoder (oneFile "old".toList) () [] "svc.yaml").1 p
        = oneFile "old".toList p :=
  (writeK8sYaml_serialization_failure reliableOs failingEncoder (oneFile "old".toList) () []
    "svc.yaml" "json: unsupported type" rfl).1 rfl

/-! ## Theorems: the splitter -/

theorem bytesSplitAux_skip (sep : Bytes) :
    ∀ (s cur : Bytes) (k : Nat),
      bytesSplitAux sep s cur k = bytesSplitAux sep (s.drop k) cur 0 := by
  intro s
  induction s with
  | nil => intro cur k; simp [bytesSplitAux]
  | cons c rest ih =>
    intro cur k
    cases k with
    | zero => rfl
    | succ k => rw [bytesSplitAux, ih cur k, List.drop_succ_cons]

theorem bytesSplitAux_cons_sep (sep : Bytes) (hne : sep ≠ []) (c : Char) (rest cur : Bytes)
    (h : sep <+: c :: rest) :
    bytesSplitAux sep (c :: rest) cur 0
      = cur :: bytesSplitAux sep ((c :: rest).drop sep.length) [] 0 := by
  have hp : sep.isPrefixOf (c :: rest) = true := List.isPrefixOf_iff_prefix.mpr h
  rw [bytesSplitAux, if_pos hp, bytesSplitAux_skip]
  cases sep with
  | nil => exact absurd rfl hne
  | cons x sep => simp

theorem bytesSplitAux_cons_other (sep : Bytes) (c : Char) (rest cur : Bytes)
    (h : ¬ sep <+: c :: rest) :
    bytesSplitAux sep (c :: rest) cur 0 = bytesSplitAux sep rest (cur ++ [c]) 0 := by
  have hp : ¬ sep.isPrefixOf (c :: rest) = true := fun hp => h (List.isPrefixOf_iff_prefix.mp hp)
  rw [bytesSplitAux, if_neg hp]

theorem bytesSplitAux_length_pos (sep : Bytes) :
    ∀ (s cur : Bytes) (k : Nat), 0 < (bytesSplitAux sep s cur k).length := by
  intro s
  induction s with
  | nil => intro cur k; simp [bytesSplitAux]
  | cons c rest ih =>
    intro cur k
    cases k with
    | succ k => rw [bytesSplitAux]; exact ih cur k
    | zero =>
      rw [bytesSplitAux]
      split
      · simp
      · exact ih _ 0

theorem bytesSplitAux_without_sep (sep : Bytes) :
    ∀ (s cur : Bytes), ¬ sep <:+: s → bytesSplitAux sep s cur 0 = [cur ++ s] := by
  intro s
  induction s with
  | nil => intro cur _; simp [bytesSplitAux]
  | cons c rest ih =>
    intro cur h
    have h1 : ¬ sep <+: c :: rest := fun hp => h hp.isInfix
    have h2 : ¬ sep <:+: rest := fun hi => h (List.infix_cons_iff.mpr (Or.inr hi))
    rw [bytesSplitAux_cons_other sep c rest cur h1, ih (cur ++ [c]) h2]
    simp

/-- C14 (splitter totality): `splitYamlDocument` returns at least one element
for every input; for an input without the separator it returns the input as
the single element; for the empty input it returns a single empty slice. -/
theorem splitYamlDocument_total (contents : Bytes) :
    0 < (splitYamlDocument contents).length ∧
    (¬ yamlDocumentSeparator <:+: contents → splitYamlDocument contents = [contents]) ∧
    splitYamlDocument [] = [[]] := by
  refine ⟨bytesSplitAux_length_pos _ _ _ _, fun h => ?_, rfl⟩
  simpa [splitYamlDocument, bytesSplit] using
    bytesSplitAux_without_sep yamlDocumentSeparator contents [] h

/-- Witness of C14: a text with dashes and line breaks but no separator. -/
theorem splitYamlDocument_total_witness :
    splitYamlDocument "a: --\n-b\n".toList = ["a: --\n-b\n".toList] :=
  (splitYamlDocument_total "a: --\n-b\n".toList).2.1 (by decide)

theorem bytesJoin_cons (x : Bytes) (rest : List Bytes) (sep : Bytes) (h : rest ≠ []) :
    bytesJoin (x :: rest) sep = x ++ sep ++ bytesJoin rest sep := by
  cases rest with
  | nil => exact absurd rfl h
  | cons y ys => rfl

theorem bytesJoin_bytesSplitAux (sep : Bytes) (hne : sep ≠ []) :
    ∀ (n : Nat) (s cur : Bytes), s.length ≤ n →
      bytesJoin (bytesSplitAux sep s cur 0) sep = cur ++ s := by
  intro n
  induction n with
  | zero =>
    intro s cur hlen
    have : s = [] := List.length_eq_zero.mp (Nat.le_zero.mp hlen)
    subst this
    simp [bytesSplitAux, bytesJoin]
  | succ n ih =>
    intro s cur hlen
    cases s with
    | nil => simp [bytesSplitAux, bytesJoin]
    | cons c rest =>
      by_cases hp : sep <+: c :: rest
      · rw [bytesSplitAux_cons_sep sep hne c rest cur hp]
        have hpos := bytesSplitAux_length_pos sep ((c :: rest).drop sep.length) [] 0
        have hlen2 : ((c :: rest).drop sep.length).length ≤ n := by
          have h1 : 0 < sep.length := List.length_pos.mpr hne
          simp only [List.length_drop, List.length_cons] at hlen ⊢
          omega
        rw [bytesJoin_cons _ _ _ (List.length_pos.mp hpos), ih _ [] hlen2, List.nil_append,
          List.append_assoc, List.prefix_iff_eq_append.mp hp]
      · rw [bytesSplitAux_cons_other sep c rest cur hp]
        have hlen2 : rest.length ≤ n := by simpa using hlen
        rw [ih rest (cur ++ [c]) hlen2]
        simp

theorem bytesSplitAux_elements (sep : Bytes) (hne : sep ≠ []) :
    ∀ (n : Nat) (s cur : Bytes), s.length ≤ n →
      (∀ a b, cur = a ++ b → b ≠ [] → ¬ sep <+: b ++ s) →
      ∀ d ∈ bytesSplitAux sep s cur 0, ¬ sep <:+: d := by
  have hcur : ∀ (s cur : Bytes), (∀ a b, cur = a ++ b → b ≠ [] → ¬ sep <+: b ++ s) →
      ¬ sep <:+: cur := by
    intro s cur hinv hin
    obtain ⟨a, c, hac⟩ := hin
    refine hinv a (sep ++ c) (by rw [← hac, List.append_assoc]) (by simp [hne]) ?_
    rw [List.append_assoc]
    exact List.prefix_append _ _
  intro n
  induction n with
  | zero =>
    intro s cur hlen hinv d hd
    have : s = [] := List.length_eq_zero.mp (Nat.le_zero.mp hlen)
    subst this
    simp only [bytesSplitAux, List.mem_singleton] at hd
    subst hd
    exact hcur [] d hinv
  | succ n ih =>
    intro s cur hlen hinv d hd
    cases s with
    | nil =>
      simp only [bytesSplitAux, List.mem_singleton] at hd
      subst hd
      exact hcur [] d hinv
    | cons c rest =>
      by_cases hp : sep <+: c :: rest
      · rw [bytesSplitAux_cons_sep sep hne c rest cur hp] at hd
        rcases List.mem_cons.mp hd with rfl | hd
        · exact hcur _ d hinv
        · have hlen2 : ((c :: rest).drop sep.length).length ≤ n := by
            have h1 : 0 < sep.length := List.length_pos.mpr hne
            simp only [List.length_drop, List.length_cons] at hlen ⊢
            omega
          refine ih _ [] hlen2 ?_ d hd
          intro a b hab hb
          have : b = [] := (List.append_eq_nil.mp hab.symm).2
          exact absurd this hb
      · rw [bytesSplitAux_cons_other sep c rest cur hp] at hd
        have hlen2 : rest.length ≤ n := by simpa using hlen
        refine ih rest (cur ++ [c]) hlen2 ?_ d hd
        intro a b hab hb
        rcases List.eq_nil_or_concat b with hnil | ⟨L, x, hL⟩
        · exact absurd hnil hb
        · rw [List.concat_eq_append] at hL
          subst hL
          rw [← List.append_assoc] at hab
          obtain ⟨h1, h2⟩ := List.append_inj' hab rfl
          have hx : c = x := by simpa using h2
          subst hx
          rw [List.append_assoc, List.singleton_append]
          cases L with
          | nil => simpa using hp
          | cons y L => exact hinv a (y :: L) (by simpa using h1) (by simp)

theorem yamlDocumentSeparator_eq : yamlDocumentSeparator = ['-', '-', '-', '\n'] := by
  decide

/-- No occurrence of the separator starts inside a piece that does not
contain it and is followed by the separator: the line break is the last
character of the separator and no other. -/
theorem separator_not_early (x rest : Bytes) (hx : x ≠ [])
    (hfree : ¬ yamlDocumentSeparator <:+: x) :
    ¬ yamlDocumentSeparator <+: x ++ yamlDocumentSeparator ++ rest := by
  rw [yamlDocumentSeparator_eq] at hfree ⊢
  intro hp
  rcases x with _ | ⟨a, _ | ⟨b, _ | ⟨c, _ | ⟨d, x⟩⟩⟩⟩
  · exact hx rfl
  · simp [List.cons_prefix_cons] at hp
  · simp [List.cons_prefix_cons] at hp
  · simp [List.cons_prefix_cons] at hp
  · simp only [List.cons_append, List.cons_prefix_cons] at hp
    obtain ⟨h1, h2, h3, h4, _⟩ := hp
    subst h1 h2 h3 h4
    exact hfree ⟨[], x, rfl⟩

theorem bytesSplitAux_piece (rest : Bytes) :
    ∀ (x cur : Bytes), ¬ yamlDocumentSeparator <:+: x →
      bytesSplitAux yamlDocumentSeparator (x ++ yamlDocumentSeparator ++ rest) cur 0
        = (cur ++ x) :: bytesSplitAux yamlDocumentSeparator rest [] 0 := by
  have hne : yamlDocumentSeparator ≠ [] := by decide
  intro x
  induction x with
  | nil =>
    intro cur _
    have hp : yamlDocumentSeparator <+: '-' :: (['-', '-', '\n'] ++ rest) :=
      ⟨rest, by rw [yamlDocumentSeparator_eq]; rfl⟩
    have heq : [] ++ yamlDocumentSeparator ++ rest = '-' :: (['-', '-', '\n'] ++ rest) := by
      rw [yamlDocumentSeparator_eq]; rfl
    rw [heq, bytesSplitAux_cons_sep _ hne _ _ cur hp, List.append_nil]
    congr 1
  | cons c x ih =>
    intro cur hfree
    have hearly := separator_not_early (c :: x) rest (by simp) hfree
    have hfree2 : ¬ yamlDocumentSeparator <:+: x :=
      fun h => hfree (List.infix_cons_iff.mpr (Or.inr h))
    rw [List.cons_append, List.cons_append] at hearly ⊢
    rw [bytesSplitAux_cons_other _ c _ cur hearly, ih (cur ++ [c]) hfree2]
    simp

theorem splitYamlDocument_bytesJoin :
    ∀ (documents : List Bytes), documents ≠ [] →
      (∀ d ∈ documents, ¬ yamlDocumentSeparator <:+: d) →
      splitYamlDocument (bytesJoin documents yamlDocumentSeparator) = documents := by
  intro documents
  induction documents with
  | nil => intro h _; exact absurd rfl h
  | cons x rest ih =>
    intro _ hfree
    cases rest with
    | nil =>
      have := bytesSplitAux_without_sep yamlDocumentSeparator x []
        (hfree x (List.mem_cons_self _ _))
      simpa [splitYamlDocument, bytesSplit, bytesJoin] using this
    | cons y ys =>
      have hrest := ih (by simp) (fun d hd => hfree d (List.mem_cons_of_mem _ hd))
      simp only [splitYamlDocument, bytesSplit] at hrest ⊢
      rw [bytesJoin_cons x (y :: ys) _ (by simp),
        bytesSplitAux_piece _ x [] (hfree x (List.mem_cons_self _ _)), hrest, List.nil_append]

/-- C19 (split and join are inverse): for every byte string, joining the
pieces of `splitYamlDocument` with the separator gives the string back, and no
piece contains the separator; and for documents none of which contains the
separator (leftovers taken from a split, and a serialized document without
it), splitting their join, the buffer the writer writes, gives back exactly
the leftovers followed by the serialized document. -/
theorem splitYamlDocument_inverse (contents : Bytes) :
    bytesJoin (splitYamlDocument contents) yamlDocumentSeparator = contents ∧
    (∀ d ∈ splitYamlDocument contents, ¬ yamlDocumentSeparator <:+: d) ∧
    ∀ (leftOver : List Bytes) (output : Bytes),
      (∀ d ∈ leftOver, ¬ yamlDocumentSeparator <:+: d) →
      ¬ yamlDocumentSeparator <:+: output →
      splitYamlDocument (bytesJoin (leftOver ++ [output]) yamlDocumentSeparator)
        = leftOver ++ [output] := by
  have hne : yamlDocumentSeparator ≠ [] := by decide
  refine ⟨?_, ?_, ?_⟩
  · simpa [splitYamlDocument, bytesSplit] using
      bytesJoin_bytesSplitAux yamlDocumentSeparator hne contents.length contents []
        (Nat.le_refl _)
  · refine bytesSplitAux_elements yamlDocumentSeparator hne contents.length contents []
      (Nat.le_refl _) ?_
    intro a b hab hb
    exact absurd (List.append_eq_nil.mp hab.symm).2 hb
  · intro leftOver output hleft hout
    refine splitYamlDocument_bytesJoin _ (by simp) ?_
    intro d hd
    rcases List.mem_append.mp hd with h | h
    · exact hleft d h
    · rw [List.mem_singleton.mp h]
      exact hout

/-- Witness of C19: the leftovers of a file of three documents from which the
second was taken, and a serialized document, joined and split again. -/
theorem splitYamlDocument_inverse_witness :
    splitYamlDocument
        (bytesJoin
          ((splitYamlDocument "foo: bar\n---\nkind: Secret\n---\na: --\n".toList).eraseIdx 1
            ++ ["kind: Secret\nmetadata:\n  name: svc\n".toList])
          yamlDocumentSeparator)
      = (splitYamlDocument "foo: bar\n---\nkind: Secret\n---\na: --\n".toList).eraseIdx 1
          ++ ["kind: Secret\nmetadata:\n  name: svc\n".toList] :=
  (splitYamlDocument_inverse []).2.2 _ _ (by decide) (by decide)

/-! ## Theorems: the serializer, line by line -/

theorem matchSpaces_sound_spaces (k : Bytes → Option Bytes) :
    ∀ (s after : Bytes), matchSpaces k s = some after →
      ∃ ws s2, ws ≠ [] ∧ (∀ c ∈ ws, isSpace c = true) ∧ s = ws ++ s2 ∧ k s2 = some after := by
  intro s
  induction s with
  | nil => intro after h; simp [matchSpaces] at h
  | cons c rest ih =>
    intro after h
    by_cases hc : isSpace c = true
    · rw [matchSpaces, if_pos hc] at h
      cases h1 : matchSpaces k rest with
      | none =>
        rw [h1] at h
        exact ⟨[c], rest, by simp, by simpa using hc, rfl, h⟩
      | some a =>
        rw [h1] at h
        have ha : a = after := by simpa [Option.orElse] using h
        subst ha
        obtain ⟨ws, s2, _, hsp, heq, hk⟩ := ih a h1
        refine ⟨c :: ws, s2, by simp, ?_, by rw [heq, List.cons_append], hk⟩
        intro x hx
        rcases List.mem_cons.mp hx with rfl | hx
        · exact hc
        · exact hsp x hx
    · rw [matchSpaces, if_neg hc] at h
      cases h

/-- White space in front of a text that does not start with white space and
that the continuation accepts: the greedy repetition takes all of it. -/
theorem matchSpaces_run (k : Bytes → Option Bytes) (x : Bytes)
    (hx : ∀ c, x.head? = some c → isSpace c = false) (hk : k x ≠ none) :
    ∀ (ws : Bytes), ws ≠ [] → (∀ c ∈ ws, isSpace c = true) → matchSpaces k (ws ++ x) = k x := by
  have hnone : matchSpaces k x = none := by
    cases x with
    | nil => rfl
    | cons c rest =>
      have := hx c rfl
      simp [matchSpaces, this]
  intro ws
  induction ws with
  | nil => intro h; exact absurd rfl h
  | cons w ws ih =>
    intro _ hsp
    have hw : isSpace w = true := hsp w (List.mem_cons_self _ _)
    rw [List.cons_append, matchSpaces, if_pos hw]
    cases ws with
    | nil =>
      rw [List.nil_append, hnone]
      rfl
    | cons w2 ws2 =>
      rw [ih (by simp) (fun c hc => hsp c (List.mem_cons_of_mem _ hc))]
      cases hkx : k x with
      | none => exact absurd hkx hk
      | some a => rfl

theorem timeStampRegex_strips_lines : StripsLines timeStampRegex timeStampLiterals where
  strips := timeStampRegex_strips
  sound_spaces := by
    intro s after h
    obtain ⟨ws, s2, hws, hsp, heq, hk⟩ := matchSpaces_sound_spaces _ s after h
    have h2 := (lit_matchAt_eq_some _ s2 after).mp hk
    exact ⟨ws, "creationTimestamp: null".toList, hws, hsp, by simp [timeStampLiterals],
      by rw [heq, h2, List.append_assoc]⟩
  field_match := by
    intro ws lit s hws hsp hl _
    have hlit : lit = "creationTimestamp: null".toList := by
      simpa [timeStampLiterals] using hl
    subst hlit
    have hk : (Regexp.lit "creationTimestamp: null".toList).matchThen
        ("creationTimestamp: null".toList ++ s) some = some s :=
      (lit_matchAt_eq_some _ _ s).mpr rfl
    have hrun := matchSpaces_run
      (fun rest => (Regexp.lit "creationTimestamp: null".toList).matchThen rest some)
      ("creationTimestamp: null".toList ++ s)
      (by intro c hc
          have : c = 'c' := by
            have h0 : ("creationTimestamp: null".toList ++ s).head? = some 'c' := rfl
            rw [h0] at hc
            exact (Option.some.inj hc).symm
          subst this
          decide)
      (by
          show (Regexp.lit "creationTimestamp: null".toList).matchThen
            ("creationTimestamp: null".toList ++ s) some ≠ none
          rw [hk]
          simp) ws hws hsp
    rw [List.append_assoc]
    exact hrun.trans hk

theorem lit_matchThen_none (text input : Bytes) (k : Bytes → Option Bytes)
    (h : ¬ text <+: input) : (Regexp.lit text).matchThen input k = none := by
  have hp : ¬ text.isPrefixOf input = true := fun hp => h (List.isPrefixOf_iff_prefix.mp hp)
  rw [lit_matchThen, if_neg hp]

theorem not_prefix_append (x l s : Bytes) (hlen : x.length ≤ l.length) (h : ¬ x <+: l) :
    ¬ x <+: l ++ s :=
  fun hp => h (List.prefix_of_prefix_length_le hp (List.prefix_append l s) hlen)

theorem emptyStructRegex_matchAt (s : Bytes) :
    emptyStructRegex.matchAt s = matchSpaces emptyStructTail s := rfl

theorem emptyStructTail_sound (s2 after : Bytes) (hk : emptyStructTail s2 = some after) :
    ∃ lit ∈ emptyStructLiterals, s2 = lit ++ after := by
  unfold emptyStructTail at hk
  cases h1 : (Regexp.lit "status".toList).matchThen s2
      (fun rest => (Regexp.lit ": \x7b\x7d".toList).matchThen rest some) with
  | some a =>
    rw [h1] at hk
    have ha : a = after := by simpa [Option.orElse] using hk
    subst ha
    exact ⟨_, by simp [emptyStructLiterals], (lit_lit_eq_some _ _ s2 a).mp h1⟩
  | none =>
    rw [h1] at hk
    simp only [Option.orElse] at hk
    cases h2 : (Regexp.lit "selector".toList).matchThen s2
        (fun rest => (Regexp.lit ": \x7b\x7d".toList).matchThen rest some) with
    | some a =>
      rw [h2] at hk
      have ha : a = after := by simpa [Option.orElse] using hk
      subst ha
      exact ⟨_, by simp [emptyStructLiterals], (lit_lit_eq_some _ _ s2 a).mp h2⟩
    | none =>
      rw [h2] at hk
      simp only [Option.orElse] at hk
      exact ⟨_, by simp [emptyStructLiterals], (lit_lit_eq_some _ _ s2 after).mp hk⟩

theorem emptyStructTail_field (lit s : Bytes) (hl : lit ∈ emptyStructLiterals) :
    emptyStructTail (lit ++ s) = some s := by
  simp only [emptyStructLiterals, List.mem_cons, List.mem_singleton, List.not_mem_nil,
    or_false] at hl
  unfold emptyStructTail
  rcases hl with rfl | rfl | rfl
  · have h1 : (Regexp.lit "status".toList).matchThen ("status: \x7b\x7d".toList ++ s)
        (fun rest => (Regexp.lit ": \x7b\x7d".toList).matchThen rest some) = some s :=
      (lit_lit_eq_some "status".toList ": \x7b\x7d".toList _ s).mpr rfl
    rw [h1]
    rfl
  · have h2 : (Regexp.lit "selector".toList).matchThen ("selector: \x7b\x7d".toList ++ s)
        (fun rest => (Regexp.lit ": \x7b\x7d".toList).matchThen rest some) = some s :=
      (lit_lit_eq_some "selector".toList ": \x7b\x7d".toList _ s).mpr rfl
    rw [lit_matchThen_none "status".toList _ _
        (not_prefix_append _ "selector: \x7b\x7d".toList s (by decide) (by decide)), h2]
    rfl
  · have h3 : (Regexp.lit "strategy".toList).matchThen ("strategy: \x7b\x7d".toList ++ s)
        (fun rest => (Regexp.lit ": \x7b\x7d".toList).matchThen rest some) = some s :=
      (lit_lit_eq_some "strategy".toList ": \x7b\x7d".toList _ s).mpr rfl
    rw [lit_matchThen_none "status".toList _ _
        (not_prefix_append _ "strategy: \x7b\x7d".toList s (by decide) (by decide)),
      lit_matchThen_none "selector".toList _ _
        (not_prefix_append _ "strategy: \x7b\x7d".toList s (by decide) (by decide)), h3]
    rfl

theorem emptyStructRegex_strips_lines : StripsLines emptyStructRegex emptyStructLiterals where
  strips := emptyStructRegex_strips
  sound_spaces := by
    intro s after h
    rw [emptyStructRegex_matchAt] at h
    obtain ⟨ws, s2, hws, hsp, heq, hk⟩ := matchSpaces_sound_spaces _ s after h
    obtain ⟨lit, hlit, hs2⟩ := emptyStructTail_sound s2 after hk
    exact ⟨ws, lit, hws, hsp, hlit, by rw [heq, hs2, List.append_assoc]⟩
  field_match := by
    intro ws lit s hws hsp hl _
    have hk := emptyStructTail_field lit s hl
    have hhead : ∀ c, (lit ++ s).head? = some c → isSpace c = false := by
      intro c hc
      simp only [emptyStructLiterals, List.mem_cons, List.mem_singleton, List.not_mem_nil,
        or_false] at hl
      have h0 : (lit ++ s).head? = some 's' := by
        rcases hl with rfl | rfl | rfl <;> rfl
      rw [h0] at hc
      rw [← Option.some.inj hc]
      decide
    rw [emptyStructRegex_matchAt, List.append_assoc,
      matchSpaces_run emptyStructTail (lit ++ s) hhead (by rw [hk]; simp) ws hws hsp, hk]

theorem tailText_endsLine (ls : List Bytes) : endsLine (tailText ls) = true := by
  cases ls with
  | nil => rfl
  | cons l rest => simp [tailText, endsLine]

theorem tailText_cons_head (x : Char) (t : Bytes) (ls : List Bytes)
    (h : tailText ls = x :: t) : x = '\n' := by
  cases ls with
  | nil => simp [tailText] at h
  | cons l rest =>
    simp only [tailText, List.cons.injEq] at h
    exact h.1.symm

theorem bytesJoin_lines (ls : List Bytes) :
    ∀ (l : Bytes), bytesJoin (l :: ls) ['\n'] = l ++ tailText ls := by
  induction ls with
  | nil => intro l; simp [bytesJoin, tailText]
  | cons l2 rest ih =>
    intro l
    rw [bytesJoin_cons l (l2 :: rest) _ (by simp), ih l2]
    simp [tailText]

theorem endsSolid_spec (l : Bytes) (h : endsSolid l = true) :
    ∃ ys c, l = ys ++ [c] ∧ isSpace c = false := by
  unfold endsSolid at h
  cases hl : l.getLast? with
  | none => simp [hl] at h
  | some c =>
    simp only [hl, Bool.not_eq_true'] at h
    obtain ⟨ys, hys⟩ := List.getLast?_eq_some_iff.mp hl
    exact ⟨ys, c, hys, h⟩

theorem endsSolid_newline_cons (l : Bytes) : endsSolid ('\n' :: l) = endsSolid l := by
  cases l with
  | nil => decide
  | cons c rest => simp [endsSolid]

/-- A text that ends solid has no white-space-only piece at its end. -/
theorem not_spaces_of_endsSolid (g p : Bytes) (hg : endsSolid g = true) (hp : p ≠ [])
    (hsuffix : p <:+ g) (hsp : ∀ c ∈ p, isSpace c = true) : False := by
  obtain ⟨ys, c, hys, hc⟩ := endsSolid_spec g hg
  obtain ⟨a, ha⟩ := hsuffix
  rcases List.eq_nil_or_concat p with hnil | ⟨p2, x, hx⟩
  · exact hp hnil
  · rw [List.concat_eq_append] at hx
    subst hx
    rw [hys, ← List.append_assoc] at ha
    obtain ⟨_, h2⟩ := List.append_inj' ha rfl
    have hxc : x = c := by simpa using h2
    have := hsp x (by simp)
    rw [hxc, hc] at this
    cases this

theorem solidBefore_cons (isField : Bytes → Bool) (l : Bytes) (rest : List Bytes) :
    solidBefore isField (l :: rest) = true ↔
      (∀ next, rest.head? = some next → isField next = true → endsSolid l = true) ∧
      solidBefore isField rest = true := by
  rw [solidBefore, Bool.and_eq_true]
  apply and_congr_left'
  cases rest.head? with
  | none => simp
  | some next =>
    cases hf : isField next <;> simp [hf]

section Lines

variable {re : Regexp} {lits : List Bytes}

/-- When the text of the lines after the first starts with white space
followed by a field text, the first of these lines is a field line. -/
theorem tailText_field_start (hre : StripsLines re lits) (isField : Bytes → Bool) :
    ∀ (ls : List Bytes),
      (∀ l ∈ ls, isField l = false → ∀ lit ∈ lits, ¬ lit <:+: l) →
      solidBefore isField ls = true →
      ∀ (ws lit after : Bytes), (∀ c ∈ ws, isSpace c = true) → lit ∈ lits →
        tailText ls = ws ++ lit ++ after →
        ∃ f rest, ls = f :: rest ∧ isField f = true := by
  intro ls
  induction ls with
  | nil =>
    intro _ _ ws lit after _ hlit h
    have : lit = [] := by
      have h2 := congrArg List.length h
      simp only [tailText, List.length_nil, List.length_append] at h2
      exact List.length_eq_zero.mp (by omega)
    exact absurd this (hre.strips.lit_ne lit hlit)
  | cons l ls ih =>
    intro hkept hsolid ws lit after hsp hlit h
    cases hf : isField l with
    | true => exact ⟨l, ls, rfl, hf⟩
    | false =>
      exfalso
      have hne := hre.strips.lit_ne lit hlit
      have hline := hre.strips.lit_line lit hlit
      have hnolit := hkept l (List.mem_cons_self _ _) hf lit hlit
      obtain ⟨hnext, hsolid2⟩ := (solidBefore_cons isField l ls).mp hsolid
      rw [tailText] at h
      cases ws with
      | nil =>
        cases lit with
        | nil => exact hne rfl
        | cons x lit2 =>
          simp only [List.nil_append, List.cons_append, List.cons.injEq] at h
          exact hline (h.1 ▸ List.mem_cons_self _ _)
      | cons w ws1 =>
        simp only [List.cons_append, List.cons.injEq] at h
        obtain ⟨_, h⟩ := h
        rw [List.append_assoc] at h
        rcases List.append_eq_append_iff.mp h with ⟨a2, h1, h2⟩ | ⟨c2, h1, h2⟩
        · -- the line is white space only and the field text starts further on
          have hsp2 : ∀ c ∈ a2, isSpace c = true := by
            intro c hc
            exact hsp c (List.mem_cons_of_mem _ (by rw [h1]; exact List.mem_append_right _ hc))
          rw [← List.append_assoc] at h2
          obtain ⟨f, rest, hls, hff⟩ := ih
            (fun l2 hl2 => hkept l2 (List.mem_cons_of_mem _ hl2)) hsolid2 a2 lit after hsp2
            hlit h2
          have hsol := hnext f (by rw [hls]; rfl) hff
          obtain ⟨ys, c, hys, hc⟩ := endsSolid_spec l hsol
          have : isSpace c = true :=
            hsp c (List.mem_cons_of_mem _ (by rw [h1, hys]; simp))
          rw [hc] at this
          cases this
        · rcases List.append_eq_append_iff.mp h2 with ⟨a3, h3, _⟩ | ⟨c3, h3, h4⟩
          · exact hnolit ⟨ws1, a3, by rw [h1, h3, List.append_assoc]⟩
          · cases c3 with
            | nil =>
              rw [List.append_nil] at h3
              exact hnolit ⟨ws1, [], by rw [h1, h3, List.append_nil]⟩
            | cons x c4 =>
              have hx := tailText_cons_head x _ ls (by rw [h4]; rfl)
              apply hline
              rw [h3, hx]
              simp

/-- No match starts inside a piece `g` of text that contains no field text
and, when a field line follows, ends solid. -/
theorem no_match_in_segment (hre : StripsLines re lits) (isField : Bytes → Bool)
    (g : Bytes) (ls : List Bytes)
    (hg : ∀ lit ∈ lits, ¬ lit <:+: g)
    (hgsolid : (∃ f rest, ls = f :: rest ∧ isField f = true) → endsSolid g = true)
    (hkept : ∀ l ∈ ls, isField l = false → ∀ lit ∈ lits, ¬ lit <:+: l)
    (hsolid : solidBefore isField ls = true)
    (p : Bytes) (hp : p ≠ []) (hsuffix : p <:+ g) :
    re.matchAt (p ++ tailText ls) = none := by
  cases hm : re.matchAt (p ++ tailText ls) with
  | none => rfl
  | some after =>
    exfalso
    obtain ⟨ws, lit, _, hsp, hlit, h⟩ := hre.sound_spaces _ _ hm
    have hne := hre.strips.lit_ne lit hlit
    have hline := hre.strips.lit_line lit hlit
    rw [List.append_assoc] at h
    rcases List.append_eq_append_iff.mp h with ⟨a2, h1, h2⟩ | ⟨c2, h1, h2⟩
    · have hsp2 : ∀ c ∈ a2, isSpace c = true :=
        fun c hc => hsp c (by rw [h1]; exact List.mem_append_right _ hc)
      have hspp : ∀ c ∈ p, isSpace c = true :=
        fun c hc => hsp c (by rw [h1]; exact List.mem_append_left _ hc)
      rw [← List.append_assoc] at h2
      have hstart := tailText_field_start hre isField ls hkept hsolid a2 lit after hsp2 hlit h2
      exact not_spaces_of_endsSolid g p (hgsolid hstart) hp hsuffix hspp
    · rcases List.append_eq_append_iff.mp h2 with ⟨a3, h3, _⟩ | ⟨c3, h3, h4⟩
      · have hin : lit <:+: p := ⟨ws, a3, by rw [h1, h3, List.append_assoc]⟩
        exact hg lit hlit (hin.trans hsuffix.isInfix)
      · cases c3 with
        | nil =>
          rw [List.append_nil] at h3
          have hin : lit <:+: p := ⟨ws, [], by rw [h1, h3, List.append_nil]⟩
          exact hg lit hlit (hin.trans hsuffix.isInfix)
        | cons x c4 =>
          have hx := tailText_cons_head x _ ls (by rw [h4]; rfl)
          apply hline
          rw [h3, hx]
          simp

theorem ReplaceAll_segment (re : Regexp) (t : Bytes) :
    ∀ (g : Bytes), (∀ p, p ≠ [] → p <:+ g → re.matchAt (p ++ t) = none) →
      re.ReplaceAll (g ++ t) [] = g ++ re.ReplaceAll t [] := by
  intro g
  induction g with
  | nil => intro _; rfl
  | cons c g ih =>
    intro h
    have h0 := h (c :: g) (by simp) (List.suffix_refl _)
    rw [List.cons_append] at h0 ⊢
    rw [ReplaceAll_cons_none re c _ h0,
      ih (fun p hp hs => h p hp (hs.trans (List.suffix_cons c g))), List.cons_append]

/-- One replacement on the text of the lines after the first: the field
lines go, with their line breaks, and the other lines stay. -/
theorem ReplaceAll_tailText (hre : StripsLines re lits) (isField : Bytes → Bool) :
    ∀ (ls : List Bytes),
      (∀ l ∈ ls, isField l = true →
        ∃ ind lit, (∀ c ∈ ind, isSpace c = true) ∧ lit ∈ lits ∧ l = ind ++ lit) →
      (∀ l ∈ ls, isField l = false → ∀ lit ∈ lits, ¬ lit <:+: l) →
      solidBefore isField ls = true →
      re.ReplaceAll (tailText ls) [] = tailText (ls.filter (fun l => !isField l)) := by
  intro ls
  induction ls with
  | nil => intro _ _ _; rfl
  | cons l ls ih =>
    intro hfield hkept hsolid
    obtain ⟨hnext, hsolid2⟩ := (solidBefore_cons isField l ls).mp hsolid
    have ih2 := ih (fun l2 hl2 => hfield l2 (List.mem_cons_of_mem _ hl2))
      (fun l2 hl2 => hkept l2 (List.mem_cons_of_mem _ hl2)) hsolid2
    cases hf : isField l with
    | true =>
      obtain ⟨ind, lit, hind, hlit, hl⟩ := hfield l (List.mem_cons_self _ _) hf
      have hm : re.matchAt ('\n' :: (l ++ tailText ls)) = some (tailText ls) := by
        have := hre.field_match ('\n' :: ind) lit (tailText ls) (by simp)
          (by intro c hc
              rcases List.mem_cons.mp hc with rfl | hc
              · decide
              · exact hind c hc)
          hlit (tailText_endsLine ls)
        rw [hl]
        simpa using this
      rw [tailText, ReplaceAll_cons_some hre.strips _ _ _ hm, ih2]
      simp [List.filter, hf]
    | false =>
      have hnolit := hkept l (List.mem_cons_self _ _) hf
      have hg : ∀ lit ∈ lits, ¬ lit <:+: '\n' :: l := by
        intro lit hlit hin
        rcases List.infix_cons_iff.mp hin with hpre | hin2
        · cases hlt : lit with
          | nil => exact hre.strips.lit_ne lit hlit hlt
          | cons x lit2 =>
            rw [hlt] at hpre
            have hx : x = '\n' := (List.cons_prefix_cons.mp hpre).1
            apply hre.strips.lit_line lit hlit
            rw [hlt, hx]
            exact List.mem_cons_self _ _
        · exact hnolit lit hlit hin2
      have hgsolid : (∃ f rest, ls = f :: rest ∧ isField f = true) →
          endsSolid ('\n' :: l) = true := by
        rintro ⟨f, rest, hls, hff⟩
        rw [endsSolid_newline_cons]
        exact hnext f (by rw [hls]; rfl) hff
      have hseg := ReplaceAll_segment re (tailText ls) ('\n' :: l)
        (no_match_in_segment hre isField ('\n' :: l) ls hg hgsolid
          (fun l2 hl2 => hkept l2 (List.mem_cons_of_mem _ hl2)) hsolid2)
      rw [tailText, ← List.cons_append, hseg, ih2]
      simp [List.filter, hf, tailText]

/-- One replacement on a text given by its lines, of which the first is not
a field line. -/
theorem ReplaceAll_lines (hre : StripsLines re lits) (isField : Bytes → Bool)
    (lines : List Bytes)
    (hfield : ∀ l ∈ lines, isField l = true →
      ∃ ind lit, (∀ c ∈ ind, isSpace c = true) ∧ lit ∈ lits ∧ l = ind ++ lit)
    (hkept : ∀ l ∈ lines, isField l = false → ∀ lit ∈ lits, ¬ lit <:+: l)
    (hfirst : ∀ l, lines.head? = some l → isField l = false)
    (hsolid : solidBefore isField lines = true) :
    re.ReplaceAll (bytesJoin lines ['\n']) []
      = bytesJoin (lines.filter (fun l => !isField l)) ['\n'] := by
  cases lines with
  | nil => rfl
  | cons l ls =>
    have hf : isField l = false := hfirst l rfl
    obtain ⟨hnext, hsolid2⟩ := (solidBefore_cons isField l ls).mp hsolid
    have hkept2 : ∀ l2 ∈ ls, isField l2 = false → ∀ lit ∈ lits, ¬ lit <:+: l2 :=
      fun l2 hl2 => hkept l2 (List.mem_cons_of_mem _ hl2)
    have hseg := ReplaceAll_segment re (tailText ls) l
      (no_match_in_segment hre isField l ls (hkept l (List.mem_cons_self _ _) hf)
        (by rintro ⟨f, rest, hls, hff⟩; exact hnext f (by rw [hls]; rfl) hff)
        hkept2 hsolid2)
    rw [bytesJoin_lines, hseg,
      ReplaceAll_tailText hre isField ls
        (fun l2 hl2 => hfield l2 (List.mem_cons_of_mem _ hl2)) hkept2 hsolid2]
    simp [List.filter, hf, bytesJoin_lines]

end Lines

theorem isFieldLine_spec (lits : List Bytes) (l : Bytes) (h : isFieldLine lits l = true) :
    ∃ ind lit, (∀ c ∈ ind, isSpace c = true) ∧ lit ∈ lits ∧ l = ind ++ lit := by
  unfold isFieldLine at h
  obtain ⟨lit, hlit, hcond⟩ := List.any_eq_true.mp h
  simp only [Bool.and_eq_true, List.isSuffixOf_iff_suffix, List.all_eq_true] at hcond
  obtain ⟨⟨ind, hind⟩, hall⟩ := hcond
  refine ⟨ind, lit, ?_, hlit, hind.symm⟩
  have htake : l.take (l.length - lit.length) = ind := by
    rw [← hind]
    exact List.take_left' (by simp)
  rw [htake] at hall
  exact hall

theorem isFieldLine_append (lits1 lits2 : List Bytes) (l : Bytes) :
    isFieldLine (lits1 ++ lits2) l = (isFieldLine lits1 l || isFieldLine lits2 l) := by
  simp [isFieldLine, List.any_append]

/-- A text that starts with a character other than white space and occurs
after an indentation occurs in what follows the indentation. -/
theorem infix_of_infix_indent (x : Char) (L t : Bytes) (hx : isSpace x = false) :
    ∀ (ind : Bytes), (∀ c ∈ ind, isSpace c = true) → (x :: L) <:+: ind ++ t →
      (x :: L) <:+: t := by
  intro ind
  induction ind with
  | nil => intro _ h; exact h
  | cons w ind ih =>
    intro hsp h
    rw [List.cons_append] at h
    rcases List.infix_cons_iff.mp h with hpre | hin
    · have hw : x = w := (List.cons_prefix_cons.mp hpre).1
      have := hsp w (List.mem_cons_self _ _)
      rw [← hw, hx] at this
      cases this
    · exact ih (fun c hc => hsp c (List.mem_cons_of_mem _ hc)) hin

theorem solidBefore_mono (isF isG : Bytes → Bool) (himp : ∀ l, isF l = true → isG l = true) :
    ∀ (ls : List Bytes), solidBefore isG ls = true → solidBefore isF ls = true := by
  intro ls
  induction ls with
  | nil => intro _; rfl
  | cons l rest ih =>
    intro h
    obtain ⟨h1, h2⟩ := (solidBefore_cons isG l rest).mp h
    exact (solidBefore_cons isF l rest).mpr
      ⟨fun next hn hf => h1 next hn (himp next hf), ih h2⟩

theorem solidBefore_filter (isF1 isF2 isG : Bytes → Bool)
    (h1 : ∀ l, isF1 l = true → isG l = true) (h2 : ∀ l, isF2 l = true → isG l = true) :
    ∀ (ls : List Bytes), solidBefore isG ls = true →
      solidBefore isF2 (ls.filter (fun l => !isF1 l)) = true := by
  intro ls
  induction ls with
  | nil => intro _; rfl
  | cons l rest ih =>
    intro h
    obtain ⟨hnext, hrest⟩ := (solidBefore_cons isG l rest).mp h
    cases hl : isF1 l with
    | true =>
      simp only [List.filter, hl, Bool.not_true]
      exact ih hrest
    | false =>
      simp only [List.filter, hl, Bool.not_false]
      refine (solidBefore_cons isF2 l _).mpr ⟨?_, ih hrest⟩
      intro next hn hf
      cases rest with
      | nil => simp at hn
      | cons g rest2 =>
        cases hg : isF1 g with
        | true => exact hnext g rfl (h1 g hg)
        | false =>
          simp only [List.filter, hg, Bool.not_false, List.head?_cons, Option.some.injEq] at hn
          subst hn
          exact hnext g rfl (h2 g hf)

/-- C13, as amended: when the encoder stage succeeds with a YAML text whose
lines are `lines`, each line being either a field line (white space, then
`creationTimestamp: null`, `status: {}`, `selector: {}` or `strategy: {}`,
then the end of the line) or free of these four texts, the first line being
no field line, and every line directly before a field line being non-empty
and not ending in white space, then `marshalK8sEntity` succeeds and the lines
of its output are the lines that are not field lines, unchanged and in the
same order. -/
theorem marshalK8sEntity_keeps_other_lines {Obj : Type} (encoder : Encoder Obj) (obj : Obj)
    (jsonData : Bytes) (lines : List Bytes)
    (hjson : encoder.Marshal obj = .ok jsonData)
    (hyaml : encoder.JSONToYAML jsonData = .ok (bytesJoin lines ['\n']))
    (_hline : ∀ l ∈ lines, '\n' ∉ l)
    (hclass : ∀ l ∈ lines,
      isFieldLine fieldLiterals l = true ∨ ∀ lit ∈ fieldLiterals, ¬ lit <:+: l)
    (hfirst : ∀ l, lines.head? = some l → isFieldLine fieldLiterals l = false)
    (hsolid : solidBefore (isFieldLine fieldLiterals) lines = true) :
    marshalK8sEntity encoder obj
      = .ok (bytesJoin (lines.filter (fun l => !isFieldLine fieldLiterals l)) ['\n']) := by
  rw [marshalK8sEntity_ok encoder obj jsonData _ hjson hyaml]
  have hall : ∀ l, isFieldLine fieldLiterals l
      = (isFieldLine timeStampLiterals l || isFieldLine emptyStructLiterals l) :=
    fun l => isFieldLine_append _ _ l
  have himp1 : ∀ l, isFieldLine timeStampLiterals l = true → isFieldLine fieldLiterals l = true :=
    fun l h => by rw [hall, h]; rfl
  have himp2 : ∀ l, isFieldLine emptyStructLiterals l = true →
      isFieldLine fieldLiterals l = true :=
    fun l h => by rw [hall, h, Bool.or_true]
  have hcross : ∀ lit1 ∈ timeStampLiterals, ∀ lit2 ∈ emptyStructLiterals, ¬ lit1 <:+: lit2 := by
    decide
  -- first replacement
  have hkept1 : ∀ l ∈ lines, isFieldLine timeStampLiterals l = false →
      ∀ lit ∈ timeStampLiterals, ¬ lit <:+: l := by
    intro l hl hf lit hlit
    rcases hclass l hl with hfl | hno
    · rw [hall, hf, Bool.false_or] at hfl
      obtain ⟨ind, lit2, hind, hlit2, heq⟩ := isFieldLine_spec _ l hfl
      intro hin
      have hlit1 : lit = "creationTimestamp: null".toList := by
        simpa [timeStampLiterals] using hlit
      rw [heq] at hin
      have hin2 : lit <:+: lit2 := by
        rw [hlit1] at hin ⊢
        exact infix_of_infix_indent 'c' _ lit2 (by decide) ind hind hin
      exact hcross lit hlit lit2 hlit2 hin2
    · exact hno lit (List.mem_append_left _ hlit)
  have hstep1 := ReplaceAll_lines timeStampRegex_strips_lines (isFieldLine timeStampLiterals)
    lines (fun l _ hf => isFieldLine_spec _ l hf) hkept1
    (fun l hl => by
      have := hfirst l hl
      rw [hall, Bool.or_eq_false_iff] at this
      exact this.1)
    (solidBefore_mono _ _ himp1 lines hsolid)
  -- second replacement
  have hkept2 : ∀ l ∈ lines.filter (fun l => !isFieldLine timeStampLiterals l),
      isFieldLine emptyStructLiterals l = false →
      ∀ lit ∈ emptyStructLiterals, ¬ lit <:+: l := by
    intro l hl hf lit hlit
    obtain ⟨hmem, hf1⟩ := List.mem_filter.mp hl
    simp only [Bool.not_eq_true'] at hf1
    rcases hclass l hmem with hfl | hno
    · rw [hall, hf1, hf] at hfl
      cases hfl
    · exact hno lit (List.mem_append_right _ hlit)
  have hfirst2 : ∀ l, (lines.filter (fun l => !isFieldLine timeStampLiterals l)).head? = some l →
      isFieldLine emptyStructLiterals l = false := by
    intro l hl
    cases lines with
    | nil => simp at hl
    | cons l0 ls =>
      have h0 := hfirst l0 rfl
      rw [hall, Bool.or_eq_false_iff] at h0
      simp only [List.filter, h0.1, Bool.not_false, List.head?_cons, Option.some.injEq] at hl
      rw [← hl]
      exact h0.2
  have hstep2 := ReplaceAll_lines emptyStructRegex_strips_lines
    (isFieldLine emptyStructLiterals)
    (lines.filter (fun l => !isFieldLine timeStampLiterals l))
    (fun l _ hf => isFieldLine_spec _ l hf) hkept2 hfirst2
    (solidBefore_filter _ _ _ himp1 himp2 lines hsolid)
  have hfun : (fun a => !isFieldLine emptyStructLiterals a && !isFieldLine timeStampLiterals a)
      = (fun l => !isFieldLine fieldLiterals l) := by
    funext l
    rw [hall, Bool.not_or, Bool.and_comm]
  rw [hstep1, hstep2, List.filter_filter, hfun]

/-- Witness of the amended C13: the lines the encoder stage gives for a
Deployment that was never applied. -/
theorem marshalK8sEntity_keeps_other_lines_witness :
    marshalK8sEntity
        (encoderOf
          (bytesJoin
            ["kind: Deployment".toList, "metadata:".toList,
             "  creationTimestamp: null".toList, "  name: svc".toList, "spec:".toList,
             "  selector: \x7b\x7d".toList, "  strategy: \x7b\x7d".toList,
             "  template:".toList, "    metadata:".toList,
             "      creationTimestamp: null".toList, "status: \x7b\x7d".toList, "".toList]
            ['\n']))
        ()
      = .ok (bytesJoin
          (["kind: Deployment".toList, "metadata:".toList,
            "  creationTimestamp: null".toList, "  name: svc".toList, "spec:".toList,
            "  selector: \x7b\x7d".toList, "  strategy: \x7b\x7d".toList,
            "  template:".toList, "    metadata:".toList,
            "      creationTimestamp: null".toList, "status: \x7b\x7d".toList,
            "".toList].filter (fun l => !isFieldLine fieldLiterals l))
          ['\n']) :=
  marshalK8sEntity_keeps_other_lines _ () [] _ rfl rfl (by decide) (by decide) (by decide)
    (by decide)

/-- The output of the witness of the amended C13, evaluated. -/
theorem marshalK8sEntity_keeps_other_lines_output :
    bytesJoin
        (["kind: Deployment".toList, "metadata:".toList,
          "  creationTimestamp: null".toList, "  name: svc".toList, "spec:".toList,
          "  selector: \x7b\x7d".toList, "  strategy: \x7b\x7d".toList,
          "  template:".toList, "    metadata:".toList,
          "      creationTimestamp: null".toList, "status: \x7b\x7d".toList,
          "".toList].filter (fun l => !isFieldLine fieldLiterals l))
        ['\n']
      = "kind: Deployment\nmetadata:\n  name: svc\nspec:\n  template:\n    metadata:\n".toList := by
  decide

/-- C13 fails as stated: the patterns are not anchored to a line.  In the
text of a ConfigMap whose data holds the value `x status: {}`, written
between quotes, `emptyStructRegex` matches inside the line of the value, and
the line appears in the output without the end of the value. -/
theorem marshalK8sEntity_changes_value_line :
    marshalK8sEntity
        (encoderOf "data:\n  k: \x27x status: \x7b\x7d\x27\nkind: ConfigMap\n".toList) ()
      = .ok "data:\n  k: \x27x\x27\nkind: ConfigMap\n".toList := by
  rfl

/-- The white space a pattern takes before a field text reaches back over
line breaks: an empty line before a field line goes with it. -/
theorem marshalK8sEntity_takes_blank_line :
    marshalK8sEntity (encoderOf "a: |\n  x\n\n  y\nstatus: \x7b\x7d\n".toList) ()
        = .ok "a: |\n  x\n\n  y\n".toList ∧
      marshalK8sEntity (encoderOf "a: |\n  x\n\nstatus: \x7b\x7d\n".toList) ()
        = .ok "a: |\n  x\n".toList := by
  exact ⟨rfl, rfl⟩

/-! ## Theorems: `UpdateDeployment`, continued -/

section InjectorMore

variable {Other : Type}

theorem scanEnv_nil_source (strings : Strings) (v : VariableDef) (env : List EnvVar) :
    (scanEnv strings v env none).1 = none := by
  induction env with
  | nil => rfl
  | cons e rest ih =>
    by_cases he : e.Name = strings.ToUpper v.Name
    · simp [scanEnv, he]
    · simp [scanEnv, he, ih]

theorem scanEnv_some (strings : Strings) (v : VariableDef) (env : List EnvVar)
    (src : Option EnvVarSource) (source : EnvVarSource)
    (h : (scanEnv strings v env src).1 = some source) :
    src = some source ∧ ∀ e ∈ env, e.Name ≠ strings.ToUpper v.Name := by
  by_cases hp : ∃ e ∈ env, e.Name = strings.ToUpper v.Name
  · rw [scanEnv_present strings v env src hp] at h
    cases h
  · have ha : ∀ e ∈ env, e.Name ≠ strings.ToUpper v.Name :=
      fun e he hn => hp ⟨e, he, hn⟩
    rw [scanEnv_absent strings v env src ha] at h
    exact ⟨h, ha⟩

theorem injectVariables_unrecognised (strings : Strings) (configMap : ConfigMap Other)
    (secret : Secret Other) (v : VariableDef) (hv : v.VarType = .unrecognised)
    (post : List VariableDef) :
    ∀ (pre : List VariableDef) (env : List EnvVar),
      injectVariables strings configMap secret (pre ++ v :: post) env
        = injectVariables strings configMap secret (pre ++ post) env := by
  intro pre
  induction pre with
  | nil =>
    intro env
    have hb : buildEnvVarSource strings configMap secret v = .ok none := by
      simp [buildEnvVarSource, hv]
    simp only [List.nil_append, injectVariables, hb, scanEnv_nil_source]
  | cons p pre ih =>
    intro env
    simp only [List.cons_append, injectVariables]
    cases buildEnvVarSource strings configMap secret p with
    | error msg => rfl
    | ok src =>
      simp only []
      cases (scanEnv strings p env src).1 with
      | none => exact ih env
      | some source => exact ih _

/-- C15 (unrecognised variable type): a variable whose type is none of the
three recognised ones has no effect wherever it stands in the variable list;
a call with that variable alone and `overwrite = false` on a deployment that
has the container returns normally and leaves the deployment, hence the
environment list, as it was. -/
theorem UpdateDeployment_unrecognised_type (strings : Strings) (deployment : Deployment Other)
    (configMap : ConfigMap Other) (secret : Secret Other) (containerName : String)
    (v : VariableDef) (hv : v.VarType = .unrecognised) :
    (∀ (pre post : List VariableDef) (overwriteEnv : Bool),
      UpdateDeployment strings deployment configMap secret containerName (pre ++ v :: post)
          overwriteEnv
        = UpdateDeployment strings deployment configMap secret containerName (pre ++ post)
          overwriteEnv) ∧
    (∀ env, targetEnv deployment containerName = some env →
      UpdateDeployment strings deployment configMap secret containerName [v] false
        = (deployment, .ok)) := by
  constructor
  · intro pre post overwriteEnv
    simp only [UpdateDeployment, injectVariables_unrecognised strings configMap secret v hv]
  · intro env htarget
    have hb : buildEnvVarSource strings configMap secret v = .ok none := by
      simp [buildEnvVarSource, hv]
    obtain ⟨idx, dstContainer, hidx, hdst, rfl⟩ := targetEnv_some htarget
    rw [UpdateDeployment_found strings deployment configMap secret containerName [v] false idx
      dstContainer hidx hdst]
    simp only [Bool.false_eq_true, if_false, injectVariables, hb, scanEnv_nil_source,
      setContainerEnv_self deployment idx dstContainer hdst]

/-- Witness of C15: a variable of an unrecognised type injected into the
container `app`. -/
theorem UpdateDeployment_unrecognised_type_witness :
    UpdateDeployment asciiStrings
        (appDeployment [{ Name := "A", Value := "1", ValueFrom := none }])
        svcConfigMap svcSecret "app"
        [{ Name := "api_key", VarType := .unrecognised, Value := .str "x" }] false
      = (appDeployment [{ Name := "A", Value := "1", ValueFrom := none }], .ok) :=
  (UpdateDeployment_unrecognised_type asciiStrings _ svcConfigMap svcSecret "app"
    { Name := "api_key", VarType := .unrecognised, Value := .str "x" } rfl).2
    [{ Name := "A", Value := "1", ValueFrom := none }] (by decide)

theorem UpdateDeployment_shape (strings : Strings) (deployment : Deployment Other)
    (configMap : ConfigMap Other) (secret : Secret Other) (containerName : String)
    (vars : List VariableDef) (overwriteEnv : Bool) :
    (UpdateDeployment strings deployment configMap secret containerName vars overwriteEnv).1
        = deployment ∨
      ∃ idx env,
        findContainer containerName deployment.Spec.Template.Spec.Containers = some idx ∧
        (UpdateDeployment strings deployment configMap secret containerName vars
          overwriteEnv).1 = setContainerEnv deployment idx env := by
  cases hidx : findContainer containerName deployment.Spec.Template.Spec.Containers with
  | none => left; simp only [UpdateDeployment, hidx]
  | some idx =>
    obtain ⟨dstContainer, hdst, _⟩ := findContainer_some hidx
    right
    refine ⟨idx, (injectVariables strings configMap secret vars
      (if overwriteEnv then [] else dstContainer.Env)).1, rfl, ?_⟩
    rw [UpdateDeployment_found strings deployment configMap secret containerName vars
      overwriteEnv idx dstContainer hidx hdst]

/-- C16 (injection frame): whatever the outcome of the call, the deployment
afterwards has the same `Kind`, `Name` and other fields at every level down to
the pod spec and the same number of containers; every container keeps its name
and its other fields; and every container other than the first one named
`containerName`, later containers of that name included, is unchanged.  The
ConfigMap and the Secret are arguments that the function only reads. -/
theorem UpdateDeployment_frame (strings : Strings) (deployment : Deployment Other)
    (configMap : ConfigMap Other) (secret : Secret Other) (containerName : String)
    (vars : List VariableDef) (overwriteEnv : Bool) :
    (UpdateDeployment strings deployment configMap secret containerName vars
        overwriteEnv).1.Kind = deployment.Kind ∧
    (UpdateDeployment strings deployment configMap secret containerName vars
        overwriteEnv).1.Name = deployment.Name ∧
    (UpdateDeployment strings deployment configMap secret containerName vars
        overwriteEnv).1.other = deployment.other ∧
    (UpdateDeployment strings deployment configMap secret containerName vars
        overwriteEnv).1.Spec.other = deployment.Spec.other ∧
    (UpdateDeployment strings deployment configMap secret containerName vars
        overwriteEnv).1.Spec.Template.other = deployment.Spec.Template.other ∧
    (UpdateDeployment strings deployment configMap secret containerName vars
        overwriteEnv).1.Spec.Template.Spec.other = deployment.Spec.Template.Spec.other ∧
    (UpdateDeployment strings deployment configMap secret containerName vars
        overwriteEnv).1.Spec.Template.Spec.Containers.length
      = deployment.Spec.Template.Spec.Containers.length ∧
    ∀ (j : Nat) (c : Container Other), deployment.Spec.Template.Spec.Containers[j]? = some c →
      ∃ c2, (UpdateDeployment strings deployment configMap secret containerName vars
          overwriteEnv).1.Spec.Template.Spec.Containers[j]? = some c2 ∧
        c2.Name = c.Name ∧ c2.other = c.other ∧
        (findContainer containerName deployment.Spec.Template.Spec.Containers ≠ some j →
          c2 = c) := by
  rcases UpdateDeployment_shape strings deployment configMap secret containerName vars
    overwriteEnv with h | ⟨idx, env, hidx, h⟩
  · rw [h]
    exact ⟨rfl, rfl, rfl, rfl, rfl, rfl, rfl, fun j c hc => ⟨c, hc, rfl, rfl, fun _ => rfl⟩⟩
  · rw [h]
    refine ⟨rfl, rfl, rfl, rfl, rfl, rfl, ?_, ?_⟩
    · simp [setContainerEnv]
    · intro j c hc
      have hget : (setContainerEnv deployment idx env).Spec.Template.Spec.Containers[j]?
          = (fun a : Container Other => if idx = j then { a with Env := env } else a) <$>
              deployment.Spec.Template.Spec.Containers[j]? :=
        List.getElem?_modify _ idx _ j
      rw [hget, hc]
      by_cases hj : idx = j
      · refine ⟨{ c with Env := env }, by simp [hj], rfl, rfl, fun hne => ?_⟩
        exact absurd (hj ▸ hidx) hne
      · exact ⟨c, by simp [hj], rfl, rfl, fun _ => rfl⟩

/-- What a normal return of the loop over the variables tells: the list grew
at its end only, every variable built its reference without a panic, and
every variable with a reference has an entry of its name in the final
list. -/
theorem injectVariables_ok (strings : Strings) (configMap : ConfigMap Other)
    (secret : Secret Other) :
    ∀ (vars : List VariableDef) (env env2 : List EnvVar),
      injectVariables strings configMap secret vars env = (env2, .ok) →
      (∃ added, env2 = env ++ added) ∧
      ∀ v ∈ vars, ∃ src, buildEnvVarSource strings configMap secret v = .ok src ∧
        (src ≠ none → ∃ e ∈ env2, e.Name = strings.ToUpper v.Name) := by
  intro vars
  induction vars with
  | nil =>
    intro env env2 h
    simp only [injectVariables, Prod.mk.injEq, and_true] at h
    exact ⟨⟨[], by simp [h]⟩, fun v hv => absurd hv (List.not_mem_nil v)⟩
  | cons v rest ih =>
    intro env env2 h
    rw [injectVariables] at h
    cases hb : buildEnvVarSource strings configMap secret v with
    | error msg => simp [hb] at h
    | ok src =>
      simp only [hb] at h
      cases hs : (scanEnv strings v env src).1 with
      | some source =>
        simp only [hs] at h
        obtain ⟨⟨added, hadd⟩, hall⟩ := ih _ env2 h
        refine ⟨⟨_ :: added, by rw [hadd, List.append_assoc, List.singleton_append]⟩, ?_⟩
        intro w hw
        rcases List.mem_cons.mp hw with rfl | hw
        · refine ⟨src, hb, fun _ =>
            ⟨{ Name := strings.ToUpper w.Name, Value := "", ValueFrom := some source },
              ?_, rfl⟩⟩
          rw [hadd]
          simp
        · exact hall w hw
      | none =>
        simp only [hs] at h
        obtain ⟨⟨added, hadd⟩, hall⟩ := ih _ env2 h
        refine ⟨⟨added, hadd⟩, ?_⟩
        intro w hw
        rcases List.mem_cons.mp hw with rfl | hw
        · refine ⟨src, hb, fun hsrc => ?_⟩
          by_cases hp : ∃ e ∈ env, e.Name = strings.ToUpper w.Name
          · obtain ⟨e, he, hn⟩ := hp
            exact ⟨e, by rw [hadd]; exact List.mem_append_left _ he, hn⟩
          · have ha : ∀ e ∈ env, e.Name ≠ strings.ToUpper w.Name :=
              fun e he hn => hp ⟨e, he, hn⟩
            rw [scanEnv_absent strings w env src ha] at hs
            exact absurd hs hsrc
        · exact hall w hw

theorem injectVariables_fixed (strings : Strings) (configMap : ConfigMap Other)
    (secret : Secret Other) (env : List EnvVar) :
    ∀ (vars : List VariableDef),
      (∀ v ∈ vars, ∃ src, buildEnvVarSource strings configMap secret v = .ok src ∧
        (src ≠ none → ∃ e ∈ env, e.Name = strings.ToUpper v.Name)) →
      injectVariables strings configMap secret vars env = (env, .ok) := by
  intro vars
  induction vars with
  | nil => intro _; rfl
  | cons v rest ih =>
    intro h
    obtain ⟨src, hb, hsrc⟩ := h v (List.mem_cons_self _ _)
    have hs : (scanEnv strings v env src).1 = none := by
      cases src with
      | none => exact scanEnv_nil_source strings v env
      | some source => exact scanEnv_present strings v env _ (hsrc (by simp))
    rw [injectVariables]
    simp only [hb, hs]
    exact ih (fun w hw => h w (List.mem_cons_of_mem _ hw))

/-- C17 (idempotence): when a call of `UpdateDeployment` returns normally,
a second call with the same arguments on the deployment it left gives that
deployment again, and returns normally. -/
theorem UpdateDeployment_idempotent (strings : Strings) (deployment : Deployment Other)
    (configMap : ConfigMap Other) (secret : Secret Other) (containerName : String)
    (vars : List VariableDef) (overwriteEnv : Bool)
    (hok : (UpdateDeployment strings deployment configMap secret containerName vars
      overwriteEnv).2 = .ok) :
    UpdateDeployment strings
        (UpdateDeployment strings deployment configMap secret containerName vars
          overwriteEnv).1
        configMap secret containerName vars overwriteEnv
      = UpdateDeployment strings deployment configMap secret containerName vars
          overwriteEnv := by
  cases hidx : findContainer containerName deployment.Spec.Template.Spec.Containers with
  | none => simp [UpdateDeployment, hidx] at hok
  | some idx =>
    obtain ⟨dstContainer, hdst, _⟩ := findContainer_some hidx
    have hfirst := UpdateDeployment_found strings deployment configMap secret containerName
      vars overwriteEnv idx dstContainer hidx hdst
    rw [hfirst] at hok ⊢
    simp only at hok
    obtain ⟨h1, h2⟩ := findContainer_modify containerName
      (injectVariables strings configMap secret vars
        (if overwriteEnv then [] else dstContainer.Env)).1 _ idx dstContainer hidx hdst
    rw [UpdateDeployment_found strings _ configMap secret containerName vars overwriteEnv idx
      _ h1 h2, setContainerEnv_setContainerEnv]
    cases overwriteEnv with
    | true => rfl
    | false =>
      simp only [Bool.false_eq_true, if_false] at hok ⊢
      have hpair : injectVariables strings configMap secret vars dstContainer.Env
          = ((injectVariables strings configMap secret vars dstContainer.Env).1, .ok) :=
        Prod.ext rfl hok
      obtain ⟨_, hall⟩ := injectVariables_ok strings configMap secret vars _ _ hpair
      rw [injectVariables_fixed strings configMap secret _ vars hall, hok]

/-- Witness of C17: two variables, one of them named like an entry the
container already has. -/
theorem UpdateDeployment_idempotent_witness :
    UpdateDeployment asciiStrings
        (UpdateDeployment asciiStrings
          (appDeployment [{ Name := "API_KEY", Value := "plaintext", ValueFrom := none }])
          svcConfigMap svcSecret "app"
          [{ Name := "api_key", VarType := .SECRET, Value := .str "" },
           { Name := "pod_ip", VarType := .REFERENCE, Value := .str "status.podIP" }] false).1
        svcConfigMap svcSecret "app"
        [{ Name := "api_key", VarType := .SECRET, Value := .str "" },
         { Name := "pod_ip", VarType := .REFERENCE, Value := .str "status.podIP" }] false
      = UpdateDeployment asciiStrings
          (appDeployment [{ Name := "API_KEY", Value := "plaintext", ValueFrom := none }])
          svcConfigMap svcSecret "app"
          [{ Name := "api_key", VarType := .SECRET, Value := .str "" },
           { Name := "pod_ip", VarType := .REFERENCE, Value := .str "status.podIP" }] false :=
  UpdateDeployment_idempotent asciiStrings _ svcConfigMap svcSecret "app" _ false (by decide)

theorem injectVariables_nodup (strings : Strings) (configMap : ConfigMap Other)
    (secret : Secret Other) :
    ∀ (vars : List VariableDef) (env : List EnvVar), (env.map (·.Name)).Nodup →
      ((injectVariables strings configMap secret vars env).1.map (·.Name)).Nodup := by
  intro vars
  induction vars with
  | nil => intro env h; exact h
  | cons v rest ih =>
    intro env h
    rw [injectVariables]
    cases hb : buildEnvVarSource strings configMap secret v with
    | error msg => exact h
    | ok src =>
      simp only []
      cases hs : (scanEnv strings v env src).1 with
      | none => exact ih env h
      | some source =>
        obtain ⟨_, habsent⟩ := scanEnv_some strings v env src source hs
        apply ih
        rw [List.map_append, List.nodup_append]
        refine ⟨h, by simp, ?_⟩
        intro a ha hb2
        simp only [List.map_cons, List.map_nil, List.mem_singleton] at hb2
        obtain ⟨e, he, hname⟩ := List.mem_map.mp ha
        exact habsent e he (hname.trans hb2)

/-- C18 (no duplicate names): when the entry names of the target container
are pairwise distinct before the call, or `overwrite` is set, they are
pairwise distinct after it, for every variable list and whatever the
outcome. -/
theorem UpdateDeployment_names_distinct (strings : Strings) (deployment : Deployment Other)
    (configMap : ConfigMap Other) (secret : Secret Other) (containerName : String)
    (vars : List VariableDef) (overwriteEnv : Bool) (envBefore : List EnvVar)
    (htarget : targetEnv deployment containerName = some envBefore)
    (hdistinct : overwriteEnv = true ∨ (envBefore.map (·.Name)).Nodup) :
    ∃ envAfter,
      targetEnv
          (UpdateDeployment strings deployment configMap secret containerName vars
            overwriteEnv).1 containerName = some envAfter ∧
      (envAfter.map (·.Name)).Nodup := by
  obtain ⟨idx, dstContainer, hidx, hdst, rfl⟩ := targetEnv_some htarget
  rw [UpdateDeployment_found strings deployment configMap secret containerName vars
    overwriteEnv idx dstContainer hidx hdst]
  refine ⟨_, targetEnv_setContainerEnv deployment containerName idx _ hidx, ?_⟩
  apply injectVariables_nodup
  cases overwriteEnv with
  | true => simp
  | false =>
    rcases hdistinct with h | h
    · cases h
    · simpa using h

/-- Witness of C18: the variable list repeats a name, also in another letter
case, and names an entry the container already has. -/
theorem UpdateDeployment_names_distinct_witness :
    ∃ envAfter,
      targetEnv
          (UpdateDeployment asciiStrings
            (appDeployment [{ Name := "API_KEY", Value := "plaintext", ValueFrom := none },
                            { Name := "B", Value := "2", ValueFrom := none }])
            svcConfigMap svcSecret "app"
            [{ Name := "api_key", VarType := .SECRET, Value := .str "" },
             { Name := "db_url", VarType := .CONFIGMAP, Value := .str "" },
             { Name := "DB_URL", VarType := .SECRET, Value := .str "" },
             { Name := "Db_Url", VarType := .CONFIGMAP, Value := .str "" }] false).1 "app"
        = some envAfter ∧
      (envAfter.map (·.Name)).Nodup :=
  UpdateDeployment_names_distinct asciiStrings _ svcConfigMap svcSecret "app" _ false
    [{ Name := "API_KEY", Value := "plaintext", ValueFrom := none },
     { Name := "B", Value := "2", ValueFrom := none }] (by decide) (Or.inr (by decide))

end InjectorMore

end Konfigurator
